import Mathlib

/-!
# Verification of the python-osc core against its specification

A shallow embedding of the python-osc library (`pythonosc` package): the
primitive OSC type codec (`pythonosc/parsing/osc_types.py`), the NTP time
conversion (`pythonosc/parsing/ntp.py`), the message codec
(`pythonosc/osc_message.py`, `pythonosc/osc_message_builder.py`), the bundle
and packet decoders (`pythonosc/osc_bundle.py`, `pythonosc/osc_packet.py`),
the SLIP framer (`pythonosc/slip.py`) and the dispatcher's address matching
(`pythonosc/dispatcher.py`).

Modelling conventions:
* Python `bytes` values are lists of naturals (each element of a real datagram
  is in `[0, 256)`); indices are integers, with Python's negative-index slice
  semantics made explicit.
* Python `str` values are modelled by their UTF-8 byte sequences; UTF-8
  decoding/encoding validity is not modelled.
* Fallible Python code (functions raising `ParseError` / `BuildError` /
  `struct.error`) returns `Option`.
* Python `float` values appearing as times are modelled as exact rationals;
  IEEE-754 payloads of `f`/`d` arguments are carried as their bit patterns,
  on which encode/decode act exactly (for finite non-NaN values the
  bits-to-value map is injective, so bit equality is value equality).
-/

namespace PythonOsc

/-- A Python `bytes` element. -/
abbrev Byte := Nat

/-- A Python `bytes` value (a datagram). -/
abbrev Dgram := List Byte

/-- Resolve one endpoint of a Python slice for a sequence of length `n`:
negative indices count from the end and are clamped at `0`; nonnegative
indices are clamped at `n`. -/
def resolveIdx (n : Nat) (i : Int) : Nat :=
  if i < 0 then ((n : Int) + i).toNat else min i.toNat n

/-- Python slice `l[a:b]`. -/
def pySlice (l : List α) (a b : Int) : List α :=
  (l.take (resolveIdx l.length b)).drop (resolveIdx l.length a)

/-- Python slice `l[a:]`. -/
def pySliceFrom (l : List α) (a : Int) : List α :=
  l.drop (resolveIdx l.length a)

/-- Big-endian interpretation of a byte list (what `struct.unpack` of an
unsigned big-endian format computes on the raw bytes). -/
def beNat (l : List Byte) : Nat := l.foldl (fun acc b => acc * 256 + b) 0

/-- Big-endian encoding of `v` in `k` bytes (what `struct.pack` of an unsigned
big-endian format produces, for in-range `v`). -/
def beBytes : Nat → Nat → List Byte
  | 0, _ => []
  | k + 1, v => beBytes k (v / 256) ++ [v % 256]

/-- Two's-complement signed reading of a `bits`-bit value
(`struct.unpack(">i", …)` with `bits = 32`, `">q"` with `bits = 64`). -/
def toSigned (bits : Nat) (v : Nat) : Int :=
  if v < 2 ^ (bits - 1) then (v : Int) else (v : Int) - 2 ^ bits

/-! ## `pythonosc/parsing/osc_types.py`: the primitive codec -/

/-- `osc_types.write_string`: UTF-8 bytes plus 1–4 NUL bytes of padding
(`diff = 4 - len % 4`, so a length that is already a multiple of 4 still gets
4 NULs). Unicode encoding errors are not modelled (strings are byte lists). -/
def write_string (s : List Byte) : Dgram :=
  s ++ List.replicate (4 - s.length % 4) 0

/-- `osc_types.get_string`. Returns the bytes of the decoded string (all NUL
bytes removed, as `data_str.replace(b"\x00", b"")`) and the new index.

The source's first `if` compares `dgram[start_index + 4]` — a single byte,
a Python `int` — with the 4-byte `bytes` constant `_EMPTY_STR_DGRAM`; in
Python an `int` never equals a `bytes` object, so that branch never fires and
is not represented here.  The `while` loop scanning for the first NUL raises
`IndexError` (mapped to `ParseError`, i.e. `none`) when it runs past the end
of the datagram. -/
def get_string (dgram : Dgram) (start : Int) : Option (List Byte × Int) :=
  if start < 0 then none
  else
    let s := start.toNat
    match (dgram.drop s).findIdx? (· == 0) with
    | none => none
    | some k =>
      let offset := if k % 4 = 0 then k + 4 else k + (4 - k % 4)
      if offset > (pySliceFrom dgram (s : Int)).length then none
      else some ((pySlice dgram (s : Int) ((s : Int) + (offset : Int))).filter (fun b => b != 0),
        (s : Int) + (offset : Int))

/-- `osc_types.write_int` (`struct.pack(">i", val)`): fails for values outside
the signed 32-bit range. -/
def write_int (val : Int) : Option Dgram :=
  if -2 ^ 31 ≤ val ∧ val < 2 ^ 31 then some (beBytes 4 (val % 2 ^ 32).toNat)
  else none

/-- `osc_types.get_int` (`struct.unpack(">i", dgram[start:start+4])`). -/
def get_int (dgram : Dgram) (start : Int) : Option (Int × Int) :=
  if (pySliceFrom dgram start).length < 4 then none
  else
    let bs := pySlice dgram start (start + 4)
    if bs.length = 4 then some (toSigned 32 (beNat bs), start + 4) else none

/-- `osc_types.write_int64` (`struct.pack(">q", val)`). -/
def write_int64 (val : Int) : Option Dgram :=
  if -2 ^ 63 ≤ val ∧ val < 2 ^ 63 then some (beBytes 8 (val % 2 ^ 64).toNat)
  else none

/-- `osc_types.get_int64` (`struct.unpack(">q", dgram[start:start+8])`). -/
def get_int64 (dgram : Dgram) (start : Int) : Option (Int × Int) :=
  if (pySliceFrom dgram start).length < 8 then none
  else
    let bs := pySlice dgram start (start + 8)
    if bs.length = 8 then some (toSigned 64 (beNat bs), start + 8) else none

/-- `osc_types.get_uint64` (`struct.unpack(">Q", dgram[start:start+8])`). -/
def get_uint64 (dgram : Dgram) (start : Int) : Option (Nat × Int) :=
  if (pySliceFrom dgram start).length < 8 then none
  else
    let bs := pySlice dgram start (start + 8)
    if bs.length = 8 then some (beNat bs, start + 8) else none

/-- `osc_types.write_float` for a 32-bit payload: the argument is carried as
its IEEE-754 single bit pattern, which `struct.pack(">f", val)` serialises
big-endian.  (A Python float that is exactly representable as a single is
packed without rounding; legal `f` arguments are restricted to those.) -/
def write_float (bits : Nat) : Dgram := beBytes 4 bits

/-- `osc_types.get_float`, including the Reaktor compatibility quirk: if
fewer than 4 bytes remain at `start`, the datagram is zero-padded on the
right to make the read possible.  Returns the bit pattern read. -/
def get_float (dgram : Dgram) (start : Int) : Option (Nat × Int) :=
  let dgram' :=
    if (pySliceFrom dgram start).length < 4 then
      dgram ++ List.replicate (4 - (pySliceFrom dgram start).length) 0
    else dgram
  let bs := pySlice dgram' start (start + 4)
  if bs.length = 4 then some (beNat bs, start + 4) else none

/-- `osc_types.write_double`: the argument is carried as its IEEE-754 double
bit pattern, serialised big-endian by `struct.pack(">d", val)`. -/
def write_double (bits : Nat) : Dgram := beBytes 8 bits

/-- `osc_types.get_double` (`struct.unpack(">d", dgram[start:start+8])`),
returning the bit pattern read. -/
def get_double (dgram : Dgram) (start : Int) : Option (Nat × Int) :=
  if (pySliceFrom dgram start).length < 8 then none
  else
    let bs := pySlice dgram start (start + 8)
    if bs.length = 8 then some (beNat bs, start + 8) else none

/-- `osc_types.write_blob`: fails for an empty blob; int32 size, the bytes,
then NUL padding up to a multiple of 4 of the whole datagram. -/
def write_blob (val : List Byte) : Option Dgram :=
  if val = [] then none
  else do
    let sz ← write_int (val.length : Int)
    let d := sz ++ val
    pure (d ++ List.replicate ((4 - d.length % 4) % 4) 0)

/-- `osc_types.get_blob`: int32 size `size`, `total_size = size + (-size % 4)`,
bounds check `end_index - start_index > len(dgram[start_index:])`, returns
`dgram[int_offset : int_offset + size]` advancing by `total_size`. -/
def get_blob (dgram : Dgram) (start : Int) : Option (List Byte × Int) := do
  let (size, int_offset) ← get_int dgram start
  let total_size := size + -size % 4
  let end_index := int_offset + size
  if end_index - start > ((pySliceFrom dgram start).length : Int) then none
  else pure (pySlice dgram int_offset (int_offset + size), int_offset + total_size)

/-- `osc_types.write_rgba` (`struct.pack(">I", val)`): fails outside the
unsigned 32-bit range (the Python value may be any int). -/
def write_rgba (val : Int) : Option Dgram :=
  if 0 ≤ val ∧ val < 2 ^ 32 then some (beBytes 4 val.toNat) else none

/-- `osc_types.get_rgba` (`struct.unpack(">I", …)`). -/
def get_rgba (dgram : Dgram) (start : Int) : Option (Nat × Int) :=
  if (pySliceFrom dgram start).length < 4 then none
  else
    let bs := pySlice dgram start (start + 4)
    if bs.length = 4 then some (beNat bs, start + 4) else none

/-- `osc_types.write_midi`: packs the four tuple entries, each masked with
`0xFF`, into a big-endian u32 (`sum((value & 0xFF) << 8 * (3 - pos))`).
A tuple of length ≠ 4 raises `BuildError`; our tuple type is exact. -/
def write_midi (val : Int × Int × Int × Int) : Dgram :=
  beBytes 4
    (((val.1 % 256).toNat * 2 ^ 24) + ((val.2.1 % 256).toNat * 2 ^ 16) +
      ((val.2.2.1 % 256).toNat * 2 ^ 8) + (val.2.2.2 % 256).toNat)

/-- `osc_types.get_midi`: reads a u32 and splits it into the four bytes
`(port, status, data1, data2)`. -/
def get_midi (dgram : Dgram) (start : Int) : Option ((Nat × Nat × Nat × Nat) × Int) :=
  if (pySliceFrom dgram start).length < 4 then none
  else
    let bs := pySlice dgram start (start + 4)
    if bs.length = 4 then
      let v := beNat bs
      some ((v / 2 ^ 24 % 256, v / 2 ^ 16 % 256, v / 2 ^ 8 % 256, v % 256), start + 4)
    else none

/-- `osc_types.get_timetag`: reads a u64 and returns
`(seconds, fraction)` split at bit 32 (the source converts `seconds` to a
`datetime`, a bijective change of representation not modelled). -/
def get_timetag (dgram : Dgram) (start : Int) : Option ((Nat × Nat) × Int) :=
  if (pySliceFrom dgram start).length < 8 then none
  else do
    let (timetag, _) ← get_uint64 dgram start
    pure ((timetag / 2 ^ 32, timetag % 2 ^ 32), start + 8)

/-! ## `pythonosc/parsing/ntp.py`: NTP time conversion

System times and NTP fractional seconds are Python floats; they are modelled
here as exact rationals. -/

/-- `ntp.IMMEDIATELY = struct.pack(">Q", 1)`: the wire sentinel bytes. -/
def ntpImmediatelyBytes : Dgram := [0, 0, 0, 0, 0, 0, 0, 1]

/-- `ntp._NTP_DELTA`: seconds between 1900-01-01 and 1970-01-01. -/
def NTP_DELTA : ℚ := 2208988800

/-- Python `int()` applied to a float value truncates toward zero. -/
def pyInt (q : ℚ) : Int := if 0 ≤ q then ⌊q⌋ else ⌈q⌉

/-- `ntp.system_time_to_ntp`:
`struct.pack(">Q", int((seconds + _NTP_DELTA) * _SECONDS_TO_NTP_TIMESTAMP))`.
`struct.pack(">Q", v)` fails outside `[0, 2^64)` (surfaced as an error). -/
def system_time_to_ntp (seconds : ℚ) : Option Dgram :=
  let v := pyInt ((seconds + NTP_DELTA) * 2 ^ 32)
  if 0 ≤ v ∧ v < 2 ^ 64 then some (beBytes 8 v.toNat) else none

/-- `ntp.ntp_time_to_system_epoch`. -/
def ntp_time_to_system_epoch (seconds : ℚ) : ℚ := seconds - NTP_DELTA

/-- `osc_types.IMMEDIATELY = 0`, in the system-time domain. -/
def IMMEDIATELY : ℚ := 0

/-- `osc_types.get_date`: the immediate sentinel bytes decode to
`IMMEDIATELY`; otherwise a u64 NTP timestamp is scaled by `2^-32` and shifted
to the system epoch. -/
def get_date (dgram : Dgram) (start : Int) : Option (ℚ × Int) :=
  if pySlice dgram start (start + 8) = ntpImmediatelyBytes then some (IMMEDIATELY, start + 8)
  else if (pySliceFrom dgram start).length < 8 then none
  else do
    let (timetag, start') ← get_uint64 dgram start
    pure (ntp_time_to_system_epoch ((timetag : ℚ) / 2 ^ 32), start')

/-- `osc_types.write_date`. -/
def write_date (system_time : ℚ) : Option Dgram :=
  if system_time = IMMEDIATELY then some ntpImmediatelyBytes
  else system_time_to_ntp system_time

/-! ## `pythonosc/osc_message.py`: message parsing

Parsed OSC arguments are heterogeneous Python values: `i`/`h` yield Python
ints, `r` a Python int, `f`/`d` Python floats, `s` a str, `b` a bytes, `m` a
4-tuple of ints, `t` a `(datetime, fraction)` pair, `T`/`F` bools, `N` None,
arrays nested lists.  The constructors below additionally record the wire
width of numeric values (`float` carries the IEEE-754 single bit pattern,
`double` the double bit pattern; for finite non-NaN floats the pattern
determines the Python value injectively, so equality of patterns at equal
type tags coincides with Python `==`). -/

inductive PyValue where
  | int (v : Int)
  | float (bits : Nat)
  | double (bits : Nat)
  | str (s : List Byte)
  | blob (b : List Byte)
  | rgba (v : Int)
  | midi (m : Nat × Nat × Nat × Nat)
  | timetag (seconds : Nat) (fraction : Nat)
  | bool (b : Bool)
  | none
  | list (l : List PyValue)

/-- A parsed OSC message: address, parameter list, the (possibly trimmed)
datagram and the trailing bytes beyond the parsed content. -/
structure OscMessage where
  address : List Byte
  params : List PyValue
  dgram : Dgram
  dgramTail : Option Dgram

/-- Append a value to the innermost list under construction
(`param_stack[-1].append(val)`); the head of the stack is the innermost
list.  The stack is never empty when this is called. -/
def appendTop (stack : List (List PyValue)) (v : PyValue) : List (List PyValue) :=
  match stack with
  | [] => []
  | top :: rest => (top ++ [v]) :: rest

/-- The type-tag walking loop of `OscMessage._parse_datagram`.  The Python
code appends a fresh mutable list to the current top at `[` and pushes it;
the pure equivalent pushes an empty list at `[` and attaches it to its parent
at `]`, which produces the same tree in the same sibling order.  A `]` with
fewer than two stack entries and a final stack depth other than one are
`ParseError`s.  Unknown type tags are skipped with a warning. -/
def parseTags (dgram : Dgram) :
    List Byte → Int → List (List PyValue) → Option (List PyValue × Int)
  | [], index, stack =>
    match stack with
    | [params] => some (params, index)
    | _ => Option.none
  | t :: rest, index, stack =>
    if t = 0x69 then do       -- "i": Integer
      let (v, index') ← get_int dgram index
      parseTags dgram rest index' (appendTop stack (.int v))
    else if t = 0x68 then do  -- "h": Int64
      let (v, index') ← get_int64 dgram index
      parseTags dgram rest index' (appendTop stack (.int v))
    else if t = 0x66 then do  -- "f": Float
      let (v, index') ← get_float dgram index
      parseTags dgram rest index' (appendTop stack (.float v))
    else if t = 0x64 then do  -- "d": Double
      let (v, index') ← get_double dgram index
      parseTags dgram rest index' (appendTop stack (.double v))
    else if t = 0x73 then do  -- "s": String
      let (v, index') ← get_string dgram index
      parseTags dgram rest index' (appendTop stack (.str v))
    else if t = 0x62 then do  -- "b": Blob
      let (v, index') ← get_blob dgram index
      parseTags dgram rest index' (appendTop stack (.blob v))
    else if t = 0x72 then do  -- "r": RGBA
      let (v, index') ← get_rgba dgram index
      parseTags dgram rest index' (appendTop stack (.rgba (v : Int)))
    else if t = 0x6D then do  -- "m": MIDI
      let (v, index') ← get_midi dgram index
      parseTags dgram rest index' (appendTop stack (.midi v))
    else if t = 0x74 then do  -- "t": time tag
      let (v, index') ← get_timetag dgram index
      parseTags dgram rest index' (appendTop stack (.timetag v.1 v.2))
    else if t = 0x54 then     -- "T": True
      parseTags dgram rest index (appendTop stack (.bool true))
    else if t = 0x46 then     -- "F": False
      parseTags dgram rest index (appendTop stack (.bool false))
    else if t = 0x4E then     -- "N": Nil
      parseTags dgram rest index (appendTop stack .none)
    else if t = 0x5B then     -- "[": Array start
      parseTags dgram rest index ([] :: stack)
    else if t = 0x5D then     -- "]": Array stop
      match stack with
      | top :: parent :: outer =>
        parseTags dgram rest index ((parent ++ [.list top]) :: outer)
      | _ => Option.none
    else                      -- unknown tag: warning, skip
      parseTags dgram rest index stack

/-- `OscMessage._parse_datagram` (and the constructor): read the address,
return early if no bytes remain, read the type-tag string, strip a leading
`,`, walk the tags, and split off any trailing bytes. -/
def oscMessageParse (dgram : Dgram) : Option OscMessage := do
  let (addr, index) ← get_string dgram 0
  if pySliceFrom dgram index = [] then
    pure ⟨addr, [], dgram, Option.none⟩
  else
    let (tt, index) ← get_string dgram index
    let type_tag := if tt.head? = some 0x2C then tt.tail else tt
    let (params, index) ← parseTags dgram type_tag index [[]]
    if index < (dgram.length : Int) then
      pure ⟨addr, params, pySlice dgram 0 index, some (pySliceFrom dgram index)⟩
    else
      pure ⟨addr, params, dgram, Option.none⟩

/-- `OscMessage.dgram_is_message`: the datagram starts with `/` (0x2F). -/
def dgram_is_message (dgram : Dgram) : Bool := dgram.head? = some 0x2F

/-! ## `pythonosc/osc_message_builder.py`: building messages -/

/-- One entry of the builder's `_args` list: a type-tag character (as its
ASCII byte) and the argument value (`None` for the `[`/`]` markers). -/
abbrev ArgEntry := Byte × PyValue

/-- The per-argument serialisation step of `OscMessageBuilder.build`'s loop.
Boolean, nil and array markers contribute no payload bytes.  A tag/value
combination the loop does not handle raises (`BuildError` for an unknown tag;
a mismatched value fails inside the `write_*` call). -/
def writeArgPayload (tag : Byte) (v : PyValue) : Option Dgram :=
  if tag = 0x73 then match v with | .str s => some (write_string s) | _ => Option.none
  else if tag = 0x69 then match v with | .int n => write_int n | _ => Option.none
  else if tag = 0x68 then match v with | .int n => write_int64 n | _ => Option.none
  else if tag = 0x66 then match v with | .float bits => some (write_float bits) | _ => Option.none
  else if tag = 0x64 then match v with | .double bits => some (write_double bits) | _ => Option.none
  else if tag = 0x62 then match v with | .blob b => write_blob b | _ => Option.none
  else if tag = 0x72 then match v with | .rgba n => write_rgba n | _ => Option.none
  else if tag = 0x6D then
    match v with
    | .midi m => some (write_midi ((m.1 : Int), (m.2.1 : Int), (m.2.2.1 : Int), (m.2.2.2 : Int)))
    | _ => Option.none
  else if tag = 0x54 ∨ tag = 0x46 ∨ tag = 0x5B ∨ tag = 0x5D ∨ tag = 0x4E then some []
  else Option.none

/-- `OscMessageBuilder.build`: requires a nonempty address, writes the
address, the `,`-prefixed type-tag string, then each argument's payload, and
returns the parsed `OscMessage` of the assembled datagram. -/
def build (address : List Byte) (args : List ArgEntry) : Option OscMessage :=
  if address.isEmpty then Option.none
  else
    let d0 := write_string address
    if args.isEmpty then oscMessageParse (d0 ++ write_string [0x2C])
    else do
      let tags := 0x2C :: args.map Prod.fst
      let payload ← args.foldlM (fun acc (tv : ArgEntry) => do
        pure (acc ++ (← writeArgPayload tv.1 tv.2))) []
      oscMessageParse (d0 ++ write_string tags ++ payload)

/-! ### Typed argument values

A legal OSC argument value, with the OSC type it is sent as (the data model
of the specification: a tagged variant).  `addArgEntries` is
`OscMessageBuilder.add_arg` on such a value with its explicit type:
scalars append one `(tag, value)` entry, an array appends `[`, its
elements' entries, then `]`. -/

inductive TypedArg where
  | i (v : Int)
  | h (v : Int)
  | f (bits : Nat)
  | d (bits : Nat)
  | s (str : List Byte)
  | b (bytes : List Byte)
  | r (v : Int)
  | m (p : Nat × Nat × Nat × Nat)
  | T
  | F
  | N
  | arr (elems : List TypedArg)

mutual

/-- The builder `_args` entries appended by `add_arg` for one typed value. -/
def addArgEntries : TypedArg → List ArgEntry
  | .i v => [(0x69, .int v)]
  | .h v => [(0x68, .int v)]
  | .f bits => [(0x66, .float bits)]
  | .d bits => [(0x64, .double bits)]
  | .s str => [(0x73, .str str)]
  | .b bytes => [(0x62, .blob bytes)]
  | .r v => [(0x72, .rgba v)]
  | .m p => [(0x6D, .midi p)]
  | .T => [(0x54, .bool true)]
  | .F => [(0x46, .bool false)]
  | .N => [(0x4E, .none)]
  | .arr elems => (0x5B, .none) :: addArgEntriesList elems ++ [(0x5D, .none)]

/-- `add_arg` over a list of typed values. -/
def addArgEntriesList : List TypedArg → List ArgEntry
  | [] => []
  | a :: rest => addArgEntries a ++ addArgEntriesList rest

end

mutual

/-- The Python value denoted by a typed argument (what an elementwise
comparison of argument lists compares). -/
def pyValueOf : TypedArg → PyValue
  | .i v => .int v
  | .h v => .int v
  | .f bits => .float bits
  | .d bits => .double bits
  | .s str => .str str
  | .b bytes => .blob bytes
  | .r v => .rgba v
  | .m p => .midi p
  | .T => .bool true
  | .F => .bool false
  | .N => .none
  | .arr elems => .list (pyValuesOf elems)

def pyValuesOf : List TypedArg → List PyValue
  | [] => []
  | a :: rest => pyValueOf a :: pyValuesOf rest

end

mutual

/-- Legality of one argument value: the ranges the writers accept and the
domains on which decoding is inverse to encoding (strings without NUL bytes,
nonempty blobs, MIDI bytes in `[0, 256)`, float payloads that are finite
non-NaN bit patterns of the right width). -/
def legalArg : TypedArg → Bool
  | .i v => decide (-2 ^ 31 ≤ v) && decide (v < 2 ^ 31)
  | .h v => decide (-2 ^ 63 ≤ v) && decide (v < 2 ^ 63)
  | .f bits => decide (bits < 2 ^ 32) && decide (bits / 2 ^ 23 % 2 ^ 8 ≠ 2 ^ 8 - 1)
  | .d bits => decide (bits < 2 ^ 64) && decide (bits / 2 ^ 52 % 2 ^ 11 ≠ 2 ^ 11 - 1)
  | .s str => str.all (fun c => c != 0 && decide (c < 256))
  | .b bytes => !bytes.isEmpty && decide (bytes.length < 2 ^ 31) && bytes.all (fun c => decide (c < 256))
  | .r v => decide (0 ≤ v) && decide (v < 2 ^ 32)
  | .m p => decide (p.1 < 256) && decide (p.2.1 < 256) && decide (p.2.2.1 < 256) && decide (p.2.2.2 < 256)
  | .T => true
  | .F => true
  | .N => true
  | .arr elems => legalArgs elems

def legalArgs : List TypedArg → Bool
  | [] => true
  | a :: rest => legalArg a && legalArgs rest

end

/-- A legal OSC address: begins with `/` and has no NUL byte. -/
def legalAddress (addr : List Byte) : Bool :=
  addr.head? = some 0x2F && addr.all (fun c => c != 0 && decide (c < 256))

mutual

/-- The payload bytes the builder's loop emits for one typed argument
(markers and boolean/nil tags emit none; arrays emit their elements'
payloads in order). -/
def payloadOfArg : TypedArg → Option Dgram
  | .i v => write_int v
  | .h v => write_int64 v
  | .f bits => some (write_float bits)
  | .d bits => some (write_double bits)
  | .s str => some (write_string str)
  | .b bytes => write_blob bytes
  | .r v => write_rgba v
  | .m p => some (write_midi ((p.1 : Int), (p.2.1 : Int), (p.2.2.1 : Int), (p.2.2.2 : Int)))
  | .T => some []
  | .F => some []
  | .N => some []
  | .arr elems => payloadOfArgs elems

def payloadOfArgs : List TypedArg → Option Dgram
  | [] => some []
  | a :: rest => do pure ((← payloadOfArg a) ++ (← payloadOfArgs rest))

end

/-- The payload bytes `build`'s loop emits for a `_args` entry list: the
concatenation of `writeArgPayload` over the entries (the loop's accumulator,
started from the empty datagram). -/
def payloadOfEntries : List ArgEntry → Option Dgram
  | [] => some []
  | e :: l => do pure ((← writeArgPayload e.1 e.2) ++ (← payloadOfEntries l))

/-! ### `OscMessageBuilder._get_arg_type`: auto-typing -/

/-- Binary length of a natural number, with fuel (`fuel ≥ n` suffices, since
the argument at least halves each step). -/
def bitLengthAux : Nat → Nat → Nat
  | 0, _ => 0
  | fuel + 1, n => if n = 0 then 0 else bitLengthAux fuel (n / 2) + 1

/-- Python `int.bit_length()`: the number of bits needed for the absolute
value. -/
def pyBitLength (v : Int) : Nat := bitLengthAux v.natAbs v.natAbs

/-- The return value of `_get_arg_type`: a tag character or a nested list of
them. -/
inductive TagTree where
  | tag (t : Byte)
  | arr (l : List TagTree)

mutual

/-- `OscMessageBuilder._get_arg_type`.  The `isinstance` checks are mirrored
on the disjoint value constructors; `rgba` values are plain Python ints and
take the int branch; a `timetag` value is a 2-tuple, matches neither the
4-tuple nor the list branch, and raises `ValueError`. -/
def getArgType : PyValue → Option TagTree
  | .str _ => some (.tag 0x73)
  | .blob _ => some (.tag 0x62)
  | .bool true => some (.tag 0x54)
  | .bool false => some (.tag 0x46)
  | .int v => some (.tag (if pyBitLength v > 32 then 0x68 else 0x69))
  | .rgba v => some (.tag (if pyBitLength v > 32 then 0x68 else 0x69))
  | .float _ => some (.tag 0x66)
  | .double _ => some (.tag 0x66)
  | .midi _ => some (.tag 0x6D)
  | .timetag _ _ => Option.none
  | .list l => (getArgTypes l).map .arr
  | .none => some (.tag 0x4E)

def getArgTypes : List PyValue → Option (List TagTree)
  | [] => some []
  | v :: rest => do pure ((← getArgType v) :: (← getArgTypes rest))

end

mutual

/-- `add_arg` with an explicit (or inferred) type: a list type appends `[`,
the zipped elements, then `]`; a scalar type appends one entry.  A list type
supplied for a non-list value would raise in Python (`zip` of a non-iterable)
and is an error here. -/
def addArgTyped : PyValue → TagTree → Option (List ArgEntry)
  | v, .tag t => some [(t, v)]
  | .list l, .arr ts => do
    pure ((0x5B, PyValue.none) :: (← zipTyped l ts) ++ [(0x5D, PyValue.none)])
  | _, .arr _ => Option.none

/-- `for v, t in zip(arg_value, arg_type): self.add_arg(v, t)`
(`zip` truncates at the shorter list). -/
def zipTyped : List PyValue → List TagTree → Option (List ArgEntry)
  | _, [] => some []
  | [], _ :: _ => some []
  | v :: vs, t :: ts => do pure ((← addArgTyped v t) ++ (← zipTyped vs ts))

end

/-- `add_arg` with no explicit type: infer via `_get_arg_type`. -/
def addArgAuto (v : PyValue) : Option (List ArgEntry) := do
  addArgTyped v (← getArgType v)

/-- Building a message from auto-typed values: `add_arg` each value, then
`build`. -/
def buildAuto (address : List Byte) (values : List PyValue) : Option OscMessage := do
  let entries ← values.foldlM (fun acc v => do pure (acc ++ (← addArgAuto v))) []
  build address entries

/-! ## `pythonosc/osc_bundle.py` and `pythonosc/osc_packet.py` -/

/-- `_BUNDLE_PREFIX = b"#bundle\x00"`. -/
def bundleMagic : Dgram := [0x23, 0x62, 0x75, 0x6E, 0x64, 0x6C, 0x65, 0x00]

/-- `OscBundle.dgram_is_bundle`. -/
def dgram_is_bundle (dgram : Dgram) : Bool := bundleMagic.isPrefixOf dgram

mutual

/-- A parsed OSC bundle: its time tag (system-epoch rational, `IMMEDIATELY`
being `0`) and its contents. -/
inductive OscBundle where
  | mk (timestamp : ℚ) (contents : List BundleContent)

/-- One element of a bundle: a nested bundle or a message. -/
inductive BundleContent where
  | bundle (b : OscBundle)
  | message (m : OscMessage)

end

/-- `OscBundle.timestamp`. -/
def OscBundle.timestamp : OscBundle → ℚ
  | .mk ts _ => ts

mutual

/-- `OscBundle.__init__`: read the time tag at index 8 (after the 8-byte
`#bundle\x00` magic, which the constructor itself does not re-check), then
parse the contents.  The content loop of `_parse_contents` has no a-priori
iteration bound — and, as shown below, need not terminate — so it spends one
unit of fuel per iteration and per nested bundle; `none` on fuel exhaustion
means the loop ran at least that many iterations. -/
def parseBundleFuel : Nat → Dgram → Option OscBundle
  | 0, _ => Option.none
  | fuel + 1, dgram => do
    let (timestamp, index) ← get_date dgram 8
    let contents ← parseContentsFuel fuel dgram index
    pure (.mk timestamp contents)

/-- `OscBundle._parse_contents`: while bytes remain, read an int32 element
size, slice out the element, advance by the size, and parse the element as a
bundle or a message; an unidentifiable element is skipped with a warning. -/
def parseContentsFuel : Nat → Dgram → Int → Option (List BundleContent)
  | 0, _, _ => Option.none
  | fuel + 1, dgram, index =>
    if pySliceFrom dgram index = [] then some []
    else do
      let (content_size, index') ← get_int dgram index
      let content_dgram := pySlice dgram index' (index' + content_size)
      let index'' := index' + content_size
      if dgram_is_bundle content_dgram then do
        let b ← parseBundleFuel fuel content_dgram
        let rest ← parseContentsFuel fuel dgram index''
        pure (.bundle b :: rest)
      else if dgram_is_message content_dgram then do
        let m ← oscMessageParse content_dgram
        let rest ← parseContentsFuel fuel dgram index''
        pure (.message m :: rest)
      else
        parseContentsFuel fuel dgram index''

end

/-- `osc_packet.TimedMessage`. -/
structure TimedMessage where
  time : ℚ
  message : OscMessage

mutual

/-- `osc_packet._timed_msg_of_bundle`: for each directly contained message,
pair it with `now` when the enclosing bundle's time tag is `IMMEDIATELY` or
lies before `now`, and with the tag otherwise; recurse into nested bundles
(whose own tags then apply). -/
def timedMsgOfBundle : OscBundle → ℚ → List TimedMessage
  | .mk ts contents, now => timedMsgOfContents ts contents now

def timedMsgOfContents : ℚ → List BundleContent → ℚ → List TimedMessage
  | _, [], _ => []
  | ts, .message m :: rest, now =>
    (if ts = IMMEDIATELY ∨ ts < now then (⟨now, m⟩ : TimedMessage) else ⟨ts, m⟩) ::
      timedMsgOfContents ts rest now
  | ts, .bundle b :: rest, now =>
    timedMsgOfBundle b now ++ timedMsgOfContents ts rest now

end

/-- Stable insertion used to model Python's `sorted(…, key=lambda x: x.time)`
(a stable ascending sort by key): a new element goes after every already
placed element whose time is ≤ its own. -/
def insortByTime (x : TimedMessage) : List TimedMessage → List TimedMessage
  | [] => [x]
  | y :: ys => if y.time ≤ x.time then y :: insortByTime x ys else x :: y :: ys

/-- Python's `sorted` on `TimedMessage` lists: a stable sort by `time`. -/
def pySortedByTime (l : List TimedMessage) : List TimedMessage :=
  l.foldl (fun acc x => insortByTime x acc) []

/-- `OscPacket.__init__` at a sampled `now`: a bundle datagram yields the
time-sorted `TimedMessage`s of the bundle, a message datagram a single
message at `now`, anything else a `ParseError`. -/
def oscPacketParse (dgram : Dgram) (now : ℚ) (fuel : Nat) : Option (List TimedMessage) :=
  if dgram_is_bundle dgram then do
    let b ← parseBundleFuel fuel dgram
    pure (pySortedByTime (timedMsgOfBundle b now))
  else if dgram_is_message dgram then do
    let m ← oscMessageParse dgram
    pure [⟨now, m⟩]
  else Option.none

/-! ### Specification-side reference functions for packet decoding -/

mutual

/-- From the specification's words: every transitively contained message,
paired with the time tag of its directly enclosing (nearest) bundle, in
document order. -/
def nearestTagMsgs : OscBundle → List (ℚ × OscMessage)
  | .mk ts contents => nearestTagMsgsContents ts contents

def nearestTagMsgsContents : ℚ → List BundleContent → List (ℚ × OscMessage)
  | _, [] => []
  | ts, .message m :: rest => (ts, m) :: nearestTagMsgsContents ts rest
  | ts, .bundle b :: rest => nearestTagMsgs b ++ nearestTagMsgsContents ts rest

end

/-- From the specification's words: the effective time is the enclosing tag,
replaced by `now` when the tag is `IMMEDIATELY` or lies in the past. -/
def specEffectiveTime (tag now : ℚ) : ℚ :=
  if tag = IMMEDIATELY ∨ tag < now then now else tag

/-- The document-order effective-time assignment the specification
describes. -/
def specTimedMsgs (b : OscBundle) (now : ℚ) : List TimedMessage :=
  (nearestTagMsgs b).map (fun p => ⟨specEffectiveTime p.1 now, p.2⟩)

/-- Insertion by the strict lexicographic order on (time, document index):
since document indices are distinct, the resulting sorted permutation is
unique — it is *the* ascending-by-time reordering that keeps document order
on ties. -/
def insortLex (x : Nat × TimedMessage) :
    List (Nat × TimedMessage) → List (Nat × TimedMessage)
  | [] => [x]
  | y :: ys =>
    if y.2.time < x.2.time ∨ (y.2.time = x.2.time ∧ y.1 < x.1) then y :: insortLex x ys
    else x :: y :: ys

/-- The stable ascending-by-time sort, specified via index decoration. -/
def sortLexEnum (l : List TimedMessage) : List TimedMessage :=
  (l.enum.foldl (fun acc x => insortLex x acc) []).map Prod.snd

/-! ## `pythonosc/slip.py`: SLIP framing -/

def END : Byte := 0xC0
def ESC : Byte := 0xDB
def ESC_END : Byte := 0xDC
def ESC_ESC : Byte := 0xDD

/-- Python `bytes.replace(old, new)` for a single-byte pattern. -/
def replace1 (old : Byte) (new : List Byte) : List Byte → List Byte
  | [] => []
  | b :: rest => (if b = old then new else [b]) ++ replace1 old new rest

/-- Python `bytes.replace(old, new)` for a two-byte pattern: scan left to
right, replacing non-overlapping occurrences. -/
def replace2 (o₁ o₂ : Byte) (new : List Byte) : List Byte → List Byte
  | [] => []
  | [b] => [b]
  | b₁ :: b₂ :: rest =>
    if b₁ = o₁ ∧ b₂ = o₂ then new ++ replace2 o₁ o₂ new rest
    else b₁ :: replace2 o₁ o₂ new (b₂ :: rest)

/-- Python `bytes.strip(b)`: remove all leading and trailing occurrences. -/
def pyStrip (b : Byte) (l : List Byte) : List Byte :=
  ((l.dropWhile (· == b)).reverse.dropWhile (· == b)).reverse

/-- `slip.encode`:
`END + msg.replace(ESC, ESC+ESC_ESC).replace(END, ESC+ESC_END) + END`. -/
def slipEncode (msg : List Byte) : List Byte :=
  END :: replace1 END [ESC, ESC_END] (replace1 ESC [ESC, ESC_ESC] msg) ++ [END]

/-- The regex search `ESC[^ESC_END ESC_ESC]` of `slip.is_valid`: some `ESC`
byte is followed by a byte that is neither `ESC_END` nor `ESC_ESC`. -/
def hasBadEscape : List Byte → Bool
  | [] => false
  | [_] => false
  | b₁ :: b₂ :: rest =>
    (b₁ == ESC && !(b₂ == ESC_END) && !(b₂ == ESC_ESC)) || hasBadEscape (b₂ :: rest)

/-- `slip.is_valid`: after stripping surrounding `END` bytes, no interior
`END`, no trailing `ESC`, and no invalid escape pair. -/
def slipIsValid (packet : List Byte) : Bool :=
  let p := pyStrip END packet
  !(p.contains END || p.getLast? == some ESC || hasBadEscape p)

/-- `slip.decode`: validity check (`ProtocolError` on failure), then strip
the surrounding `END`s and undo the escapes
(`.replace(ESC+ESC_END, END).replace(ESC+ESC_ESC, ESC)`). -/
def slipDecode (packet : List Byte) : Option (List Byte) :=
  if slipIsValid packet then
    some (replace2 ESC ESC_ESC [ESC] (replace2 ESC ESC_END [END] (pyStrip END packet)))
  else Option.none

/-- The per-byte escape that `encode`'s two sequential replaces implement. -/
def escByte (b : Byte) : List Byte :=
  if b = ESC then [ESC, ESC_ESC] else if b = END then [ESC, ESC_END] else [b]

/-- The escape with the `END` escape undone (the intermediate form after
`decode`'s first replace). -/
def escByte2 (b : Byte) : List Byte :=
  if b = ESC then [ESC, ESC_ESC] else [b]

/-! ## `pythonosc/dispatcher.py`: address matching and the handler table

Address strings are lists of characters.  The regexes that
`handlers_for_address` builds are modelled by token lists with an executable
backtracking matcher (token by token; the boolean result of a regex match is
insensitive to greediness, so greedy and lazy repetitions coincide).
`\w` is modelled as ASCII alphanumerics plus underscore; Python's `\w` also
matches non-ASCII word characters, so quantified theorems restrict addresses
to ASCII. -/

/-- Python regex `\w` on ASCII: a word character. -/
def isWordChar (c : Char) : Bool := c.isAlphanum || c == '_'

/-- The three character classes appearing in the built patterns. -/
inductive StarClass where
  | wordBarPlus   -- `[\w|\+]`
  | nonSlash      -- `[^/]`
  | slash         -- `/` (from the trailing `/*` of the second direction)

def starClassMem : StarClass → Char → Bool
  | .wordBarPlus, c => isWordChar c || c == '|' || c == '+'
  | .nonSlash, c => !(c == '/')
  | .slash, c => c == '/'

/-- Tokens of the built regexes. -/
inductive ReTok where
  | lit (c : Char)        -- a literal character (via `re.escape`)
  | optWord               -- `\w?` (an escaped `?` after the replace)
  | star (cls : StarClass) -- `[…]*` repetition
  | endAnchor             -- `$`

/-- Backtracking regex matcher, anchored at the start of `s` and allowing
trailing input (Python `re.match` semantics; the built first-direction
pattern ends in `$`, the second direction has no anchor).  `$` accepts at the
end of the string or just before a final newline. -/
def reMatch : List ReTok → List Char → Bool
  | [], _ => true
  | .lit _ :: _, [] => false
  | .lit c :: rest, x :: s => x == c && reMatch rest s
  | .optWord :: rest, s =>
    (match s with
      | x :: s' => isWordChar x && reMatch rest s'
      | [] => false) ||
    reMatch rest s
  | .star cls :: rest, s =>
    reMatch rest s ||
    (match s with
      | x :: s' => starClassMem cls x && reMatch (.star cls :: rest) s'
      | [] => false)
  | .endAnchor :: rest, s => (s.isEmpty || s == ['\n']) && reMatch rest s
termination_by toks s => (s.length, toks.length)

/-- The pattern `handlers_for_address` compiles from the query address:
`re.escape(address_pattern)`, then the textual replaces `\?` → `\w?` and
`\*` → `[\w|\+]*`, then `$`.  Character by character: a `?` contributes
`\w?`, a `*` contributes `[\w|\+]*`, every other character a literal — this
agrees with the escape-then-replace pipeline for every query string, since
`re.escape` escapes each metacharacter (in particular a backslash becomes a
two-character escape whose tail never forms `\?`/`\*`). -/
def compileQuery (query : List Char) : List ReTok :=
  query.map (fun c =>
    if c == '?' then ReTok.optWord
    else if c == '*' then ReTok.star .wordBarPlus
    else ReTok.lit c) ++ [ReTok.endAnchor]

/-- The second-direction pattern: the registered address with each `*`
textually replaced by `[^/]*?/*`, used as a regex and prefix-matched against
the query.  The registered address is not escaped; its non-`*` characters
are taken literally, faithful for addresses that contain no other regex
metacharacter (all addresses considered in the theorems below). -/
def compileRegistered (addr : List Char) : List ReTok :=
  addr.foldr (fun c acc =>
    if c == '*' then ReTok.star .nonSlash :: ReTok.star .slash :: acc
    else ReTok.lit c :: acc) []

/-- The per-registered-address test of `handlers_for_address`:
`patterncompiled.match(addr)` (first direction, `$`-terminated), or — only
when the registered address contains a `*` —
`re.match(addr.replace("*", "[^/]*?/*"), address_pattern)` (second
direction, unanchored prefix match). -/
def matchesAddr (query addr : List Char) : Bool :=
  reMatch (compileQuery query) addr ||
  (addr.contains '*' && reMatch (compileRegistered addr) query)

/-- The dispatcher's observable state: the insertion-ordered
address → handler-list table (`self._map`) and the optional default
handler.  Handlers are identified by opaque ids. -/
structure Dispatcher where
  table : List (List Char × List Nat)
  defaultHandler : Option Nat

def Dispatcher.empty : Dispatcher := ⟨[], Option.none⟩

/-- `Dispatcher.map`: append a handler to the address's list (a
`defaultdict`: a first mapping inserts the key at the end of the table, in
insertion order). -/
def dispatcherMap (d : Dispatcher) (address : List Char) (handler : Nat) : Dispatcher :=
  if d.table.any (fun e => e.1 == address) then
    ⟨d.table.map (fun e => if e.1 == address then (e.1, e.2 ++ [handler]) else e),
      d.defaultHandler⟩
  else ⟨d.table ++ [(address, [handler])], d.defaultHandler⟩

/-- `Dispatcher.handlers_for_address`: walk the table in insertion order,
yielding the handler lists of the matching addresses; if no address matched
and a default handler is installed, yield it. -/
def handlersForAddress (d : Dispatcher) (query : List Char) : List Nat :=
  if d.table.any (fun e => matchesAddr query e.1) then
    (d.table.filter (fun e => matchesAddr query e.1)).flatMap Prod.snd
  else
    match d.defaultHandler with
    | some h => [h]
    | Option.none => []

/-- The bundle datagram of the non-termination witness: `#bundle\x00`, the
`IMMEDIATELY` time tag, then the single int32 `-4` as an element size. -/
def loopingBundleDgram : Dgram :=
  bundleMagic ++ ntpImmediatelyBytes ++ [0xFF, 0xFF, 0xFF, 0xFC]

/-!
# Theorems
-/

/-! ## Slice and byte-level helper lemmas -/

theorem resolveIdx_ofNat (n i : Nat) : resolveIdx n (i : Int) = min i n := by
  simp [resolveIdx]

theorem pySliceFrom_nat (l : List α) (i : Nat) : pySliceFrom l (i : Int) = l.drop i := by
  unfold pySliceFrom
  rw [resolveIdx_ofNat]
  rcases le_total i l.length with h | h
  · rw [min_eq_left h]
  · rw [min_eq_right h, List.drop_eq_nil_of_le h, List.drop_eq_nil_of_le le_rfl]

theorem pySlice_nat (l : List α) (i k : Nat) :
    pySlice l (i : Int) ((i : Int) + (k : Int)) = (l.drop i).take k := by
  unfold pySlice
  have hc : ((i : Int) + (k : Int)) = ((i + k : Nat) : Int) := by push_cast; ring
  rw [hc, resolveIdx_ofNat, resolveIdx_ofNat, List.drop_take]
  rcases le_total i l.length with h | h
  · rw [min_eq_left h, List.take_eq_take]
    simp only [List.length_drop]
    omega
  · rw [min_eq_right h]
    simp [List.drop_length, List.drop_eq_nil_of_le h]

theorem beBytes_length (k v : Nat) : (beBytes k v).length = k := by
  induction k generalizing v with
  | zero => rfl
  | succ k ih => simp [beBytes, ih]

theorem beNat_append (l₁ l₂ : List Byte) :
    beNat (l₁ ++ l₂) = l₂.foldl (fun acc b => acc * 256 + b) (beNat l₁) := by
  simp [beNat, List.foldl_append]

theorem beNat_beBytes (k v : Nat) (h : v < 256 ^ k) : beNat (beBytes k v) = v := by
  induction k generalizing v with
  | zero => simpa [beBytes, beNat] using (Nat.lt_one_iff.mp (by simpa using h)).symm
  | succ k ih =>
    have hdiv : v / 256 < 256 ^ k := by
      rw [Nat.div_lt_iff_lt_mul (by norm_num)]
      calc v < 256 ^ (k + 1) := h
        _ = 256 ^ k * 256 := by ring
    calc beNat (beBytes (k + 1) v)
        = beNat (beBytes k (v / 256) ++ [v % 256]) := rfl
      _ = beNat (beBytes k (v / 256)) * 256 + v % 256 := by
          rw [beNat_append]; rfl
      _ = v / 256 * 256 + v % 256 := by rw [ih _ hdiv]
      _ = v := by omega

/-- Reading back a two's-complement encoded int32. -/
theorem toSigned32_emod (v : Int) (h₀ : -2 ^ 31 ≤ v) (h₁ : v < 2 ^ 31) :
    toSigned 32 (v % 2 ^ 32).toNat = v := by
  have he : v % 2 ^ 32 = if 0 ≤ v then v else v + 2 ^ 32 := by
    split <;> omega
  rcases le_or_lt 0 v with h | h
  · rw [he, if_pos h]
    unfold toSigned
    rw [if_pos (by omega)]
    omega
  · rw [he, if_neg (not_le.mpr h)]
    unfold toSigned
    rw [if_neg (by omega)]
    omega

/-- Reading back a two's-complement encoded int64. -/
theorem toSigned64_emod (v : Int) (h₀ : -2 ^ 63 ≤ v) (h₁ : v < 2 ^ 63) :
    toSigned 64 (v % 2 ^ 64).toNat = v := by
  have he : v % 2 ^ 64 = if 0 ≤ v then v else v + 2 ^ 64 := by
    split <;> omega
  rcases le_or_lt 0 v with h | h
  · rw [he, if_pos h]
    unfold toSigned
    rw [if_pos (by omega)]
    omega
  · rw [he, if_neg (not_le.mpr h)]
    unfold toSigned
    rw [if_neg (by omega)]
    omega

/-! ## C8 — `get_string` on a datagram whose claimed start byte is NUL

The current `pythonosc/parsing/osc_types.py` `get_string` does **not** raise
on a NUL at the start index: the all-NUL 4-byte datagram decodes to the empty
string, advancing by 4.  This contradicts the repository's own test
(`test_get_string_raises_on_wrong_dgram` expects `ParseError` for
`b"\x00\x00\x00\x00"`) and the older `parsing/osc_types.py`, which raised
`'OSC string cannot begin with a null byte'`. -/

/-- C8: evaluating the code at the failing input: `get_string` applied to
`b"\x00\x00\x00\x00"` at index 0 — where `dgram[0]` is NUL — returns
`("", 4)` instead of raising `ParseError`. -/
theorem get_string_nul_start_returns : get_string [0, 0, 0, 0] 0 = some ([], 4) := rfl

/-! ## C7 — `system_time_to_ntp` truncates instead of rounding

`ntp.system_time_to_ntp` computes
`struct.pack(">Q", int((seconds + _NTP_DELTA) * 2**32))`, and Python's
`int()` truncates toward zero; the claimed `round(…)` differs, e.g. at
`s = 3 · 2⁻³⁴` where the scaled value has fractional part `3/4`. -/

/-- C7 counterexample: at `s = 3/2³⁴` (an exactly representable double),
`system_time_to_ntp` does not return the big-endian encoding of
`round((s + 2208988800) · 2³²)`; it returns the truncation, which is one
less. -/
theorem system_time_to_ntp_not_round :
    system_time_to_ntp (3 / 2 ^ 34) ≠
      some (beBytes 8 (round (((3 : ℚ) / 2 ^ 34 + 2208988800) * 2 ^ 32)).toNat) := by
  have harg : (((3 : ℚ) / 2 ^ 34 + 2208988800) * 2 ^ 32) = 9487534653230284800 + 3 / 4 := by
    norm_num
  have hv : pyInt (((3 : ℚ) / 2 ^ 34 + NTP_DELTA) * 2 ^ 32) = 9487534653230284800 := by
    have hd : NTP_DELTA = (2208988800 : ℚ) := rfl
    rw [pyInt, hd, harg, if_pos (by norm_num)]
    rw [Int.floor_eq_iff]
    constructor <;> norm_num
  have hr : round (((3 : ℚ) / 2 ^ 34 + 2208988800) * 2 ^ 32) = 9487534653230284801 := by
    rw [harg, round_eq]
    rw [show ((9487534653230284800 : ℚ) + 3 / 4 + 1 / 2) = 9487534653230284801 + 1 / 4 by
      norm_num]
    rw [Int.floor_eq_iff]
    constructor <;> norm_num
  rw [show system_time_to_ntp (3 / 2 ^ 34) =
      (if 0 ≤ pyInt (((3 : ℚ) / 2 ^ 34 + NTP_DELTA) * 2 ^ 32) ∧
          pyInt (((3 : ℚ) / 2 ^ 34 + NTP_DELTA) * 2 ^ 32) < 2 ^ 64 then
        some (beBytes 8 (pyInt (((3 : ℚ) / 2 ^ 34 + NTP_DELTA) * 2 ^ 32)).toNat)
      else Option.none) from rfl]
  rw [hv, hr, if_pos (by norm_num)]
  intro hcontra
  have := Option.some.inj hcontra
  revert this
  decide

/-- C7 amended: for every system time whose scaled NTP value lies in the
`u64` range, `system_time_to_ntp s` returns the 8-byte big-endian encoding
of `⌊(s + 2208988800) · 2³²⌋` — the two's conversion truncates (toward
zero, hence floor on the nonnegative range) rather than rounds. -/
theorem system_time_to_ntp_truncates (s : ℚ)
    (h0 : 0 ≤ (s + 2208988800) * 2 ^ 32) (h1 : (s + 2208988800) * 2 ^ 32 < 2 ^ 64) :
    system_time_to_ntp s = some (beBytes 8 ⌊(s + 2208988800) * 2 ^ 32⌋.toNat) := by
  have hf0 : 0 ≤ ⌊(s + 2208988800) * 2 ^ 32⌋ := Int.floor_nonneg.mpr h0
  have hf1 : ⌊(s + 2208988800) * 2 ^ 32⌋ < 2 ^ 64 := by
    rw [Int.floor_lt]
    exact_mod_cast h1
  have hd : NTP_DELTA = (2208988800 : ℚ) := rfl
  simp only [system_time_to_ntp, hd, pyInt, if_pos h0]
  rw [if_pos ⟨hf0, hf1⟩]

/-- C7 witness: the amended theorem applied at `s = 0`. -/
theorem system_time_to_ntp_truncates_witness :
    (0 : ℚ) ≤ ((0 : ℚ) + 2208988800) * 2 ^ 32 ∧
      ((0 : ℚ) + 2208988800) * 2 ^ 32 < 2 ^ 64 ∧
      system_time_to_ntp 0 = some (beBytes 8 ⌊((0 : ℚ) + 2208988800) * 2 ^ 32⌋.toNat) :=
  ⟨by norm_num, by norm_num,
    system_time_to_ntp_truncates 0 (by norm_num) (by norm_num)⟩

/-! ## C3 — SLIP round-trip -/

theorem replace1_append (old : Byte) (new l₁ l₂ : List Byte) :
    replace1 old new (l₁ ++ l₂) = replace1 old new l₁ ++ replace1 old new l₂ := by
  induction l₁ with
  | nil => rfl
  | cons b rest ih => simp [replace1, ih]

/-- The two sequential single-byte replaces of `encode` act as one per-byte
escape map. -/
theorem encode_replaces_eq_escape (msg : List Byte) :
    replace1 END [ESC, ESC_END] (replace1 ESC [ESC, ESC_ESC] msg) = msg.flatMap escByte := by
  induction msg with
  | nil => rfl
  | cons b rest ih =>
    show replace1 END [ESC, ESC_END]
        ((if b = ESC then [ESC, ESC_ESC] else [b]) ++ replace1 ESC [ESC, ESC_ESC] rest) = _
    rw [replace1_append, ih, List.flatMap_cons]
    congr 1
    by_cases h1 : b = ESC
    · subst h1
      simp [escByte, replace1, ESC, ESC_ESC, END]
    · by_cases h2 : b = END
      · subst h2
        simp [escByte, replace1, ESC, ESC_END, END]
      · simp [escByte, replace1, h1, h2]

theorem mem_escape_ne_END (msg : List Byte) : ∀ b ∈ msg.flatMap escByte, b ≠ END := by
  intro b hb
  rcases List.mem_flatMap.mp hb with ⟨c, _, hmem⟩
  unfold escByte at hmem
  split_ifs at hmem with h1 h2
  · simp only [List.mem_cons, List.not_mem_nil, or_false] at hmem
    rcases hmem with rfl | rfl <;> decide
  · simp only [List.mem_cons, List.not_mem_nil, or_false] at hmem
    rcases hmem with rfl | rfl <;> decide
  · simp only [List.mem_singleton] at hmem
    subst hmem
    exact h2

theorem getLast?_escape_ne_ESC (msg : List Byte) :
    (msg.flatMap escByte).getLast? ≠ some ESC := by
  induction msg with
  | nil => simp
  | cons b rest ih =>
    rw [List.flatMap_cons]
    rcases e : rest.flatMap escByte with _ | ⟨y, ys⟩
    · rw [List.append_nil]
      unfold escByte
      split_ifs with h1 h2
      · decide
      · decide
      · simp [h1]
    · rw [List.getLast?_append_of_ne_nil _ (by simp)]
      rw [← e]
      exact ih

theorem hasBadEscape_cons_of_ne (b : Byte) (l : List Byte) (h : b ≠ ESC) :
    hasBadEscape (b :: l) = hasBadEscape l := by
  cases l with
  | nil => rfl
  | cons y rest => simp [hasBadEscape, h]

theorem hasBadEscape_escape (msg : List Byte) :
    hasBadEscape (msg.flatMap escByte) = false := by
  induction msg with
  | nil => rfl
  | cons b rest ih =>
    rw [List.flatMap_cons]
    by_cases h1 : b = ESC
    · subst h1
      rw [show escByte ESC = [ESC, ESC_ESC] from rfl]
      show hasBadEscape (ESC :: ESC_ESC :: rest.flatMap escByte) = false
      rw [show hasBadEscape (ESC :: ESC_ESC :: rest.flatMap escByte) =
          ((ESC == ESC && !(ESC_ESC == ESC_END) && !(ESC_ESC == ESC_ESC)) ||
            hasBadEscape (ESC_ESC :: rest.flatMap escByte)) from rfl]
      rw [hasBadEscape_cons_of_ne _ _ (by simp [ESC_ESC, ESC]), ih]
      simp
    · by_cases h2 : b = END
      · subst h2
        rw [show escByte END = [ESC, ESC_END] from rfl]
        show hasBadEscape (ESC :: ESC_END :: rest.flatMap escByte) = false
        rw [show hasBadEscape (ESC :: ESC_END :: rest.flatMap escByte) =
            ((ESC == ESC && !(ESC_END == ESC_END) && !(ESC_END == ESC_ESC)) ||
              hasBadEscape (ESC_END :: rest.flatMap escByte)) from rfl]
        rw [hasBadEscape_cons_of_ne _ _ (by simp [ESC_END, ESC]), ih]
        simp
      · rw [show escByte b = [b] by simp [escByte, h1, h2]]
        show hasBadEscape (b :: rest.flatMap escByte) = false
        rw [hasBadEscape_cons_of_ne _ _ h1, ih]

theorem dropWhile_eq_self_of_all (p : Byte → Bool) (l : List Byte)
    (h : ∀ b ∈ l, p b = false) : l.dropWhile p = l := by
  cases l with
  | nil => rfl
  | cons b rest => rw [List.dropWhile_cons_of_neg (by simp [h b (by simp)])]

/-- Stripping the frame `END`s recovers the escaped body (which contains no
`END` byte). -/
theorem pyStrip_encode (l : List Byte) (h : ∀ b ∈ l, b ≠ END) :
    pyStrip END (END :: l ++ [END]) = l := by
  unfold pyStrip
  rw [List.cons_append, List.dropWhile_cons]
  simp only [beq_self_eq_true, if_true]
  cases l with
  | nil => decide
  | cons b rest =>
    have hb : (b == END) = false := by
      simpa using h b (by simp)
    rw [List.cons_append, List.dropWhile_cons, hb]
    simp only [Bool.false_eq_true, if_false]
    rw [← List.cons_append, List.reverse_append]
    simp only [List.reverse_cons, List.reverse_nil, List.nil_append, List.singleton_append]
    rw [List.dropWhile_cons]
    simp only [beq_self_eq_true, if_true]
    rw [dropWhile_eq_self_of_all _ _ (by
      intro x hx
      have hx' : x ∈ b :: rest := by
        simp only [List.mem_append, List.mem_reverse, List.mem_singleton] at hx
        simp only [List.mem_cons]
        tauto
      simp [h x hx'])]
    simp

theorem pyStrip_slipEncode (msg : List Byte) :
    pyStrip END (slipEncode msg) = msg.flatMap escByte := by
  unfold slipEncode
  rw [encode_replaces_eq_escape]
  exact pyStrip_encode _ (mem_escape_ne_END msg)

theorem slipIsValid_encode (msg : List Byte) : slipIsValid (slipEncode msg) = true := by
  have h1 : (msg.flatMap escByte).contains END = false := by
    rw [List.contains_eq_any_beq, List.any_eq_false]
    intro b hb
    have hne := mem_escape_ne_END msg b hb
    simp only [beq_iff_eq]
    exact fun hc => hne hc.symm
  have h2 : ((msg.flatMap escByte).getLast? == some ESC) = false := by
    have := getLast?_escape_ne_ESC msg
    simpa using this
  have hrw : slipIsValid (slipEncode msg) =
      !((pyStrip END (slipEncode msg)).contains END ||
        (pyStrip END (slipEncode msg)).getLast? == some ESC ||
        hasBadEscape (pyStrip END (slipEncode msg))) := rfl
  rw [hrw, pyStrip_slipEncode, h1, h2, hasBadEscape_escape]
  rfl

theorem replace2_cons_of_ne (o₁ o₂ : Byte) (new : List Byte) (b : Byte) (l : List Byte)
    (h : b ≠ o₁) : replace2 o₁ o₂ new (b :: l) = b :: replace2 o₁ o₂ new l := by
  cases l with
  | nil => rfl
  | cons y rest => simp [replace2, h]

/-- `decode`'s first replace undoes the `END` escape and leaves the `ESC`
escape intact. -/
theorem replace2_end_escape (msg : List Byte) :
    replace2 ESC ESC_END [END] (msg.flatMap escByte) = msg.flatMap escByte2 := by
  induction msg with
  | nil => rfl
  | cons b rest ih =>
    rw [List.flatMap_cons, List.flatMap_cons]
    by_cases h1 : b = ESC
    · subst h1
      rw [show escByte ESC = [ESC, ESC_ESC] from rfl,
        show escByte2 ESC = [ESC, ESC_ESC] from rfl]
      show replace2 ESC ESC_END [END] (ESC :: ESC_ESC :: rest.flatMap escByte) = _
      rw [show replace2 ESC ESC_END [END] (ESC :: ESC_ESC :: rest.flatMap escByte) =
          ESC :: replace2 ESC ESC_END [END] (ESC_ESC :: rest.flatMap escByte) by
        simp [replace2, ESC_ESC, ESC_END]]
      rw [replace2_cons_of_ne _ _ _ _ _ (by simp [ESC_ESC, ESC]), ih]
      rfl
    · by_cases h2 : b = END
      · subst h2
        rw [show escByte END = [ESC, ESC_END] from rfl,
          show escByte2 END = [END] from rfl]
        show replace2 ESC ESC_END [END] (ESC :: ESC_END :: rest.flatMap escByte) = _
        rw [show replace2 ESC ESC_END [END] (ESC :: ESC_END :: rest.flatMap escByte) =
            END :: replace2 ESC ESC_END [END] (rest.flatMap escByte) by
          simp [replace2]]
        rw [ih]
        rfl
      · rw [show escByte b = [b] by simp [escByte, h1, h2],
          show escByte2 b = [b] by simp [escByte2, h1]]
        show replace2 ESC ESC_END [END] (b :: rest.flatMap escByte) = _
        rw [replace2_cons_of_ne _ _ _ _ _ h1, ih]
        rfl

/-- `decode`'s second replace undoes the `ESC` escape. -/
theorem replace2_esc_escape (msg : List Byte) :
    replace2 ESC ESC_ESC [ESC] (msg.flatMap escByte2) = msg := by
  induction msg with
  | nil => rfl
  | cons b rest ih =>
    rw [List.flatMap_cons]
    by_cases h1 : b = ESC
    · subst h1
      rw [show escByte2 ESC = [ESC, ESC_ESC] from rfl]
      show replace2 ESC ESC_ESC [ESC] (ESC :: ESC_ESC :: rest.flatMap escByte2) = _
      rw [show replace2 ESC ESC_ESC [ESC] (ESC :: ESC_ESC :: rest.flatMap escByte2) =
          ESC :: replace2 ESC ESC_ESC [ESC] (rest.flatMap escByte2) by
        simp [replace2]]
      rw [ih]
    · rw [show escByte2 b = [b] by simp [escByte2, h1]]
      show replace2 ESC ESC_ESC [ESC] (b :: rest.flatMap escByte2) = _
      rw [replace2_cons_of_ne _ _ _ _ _ h1, ih]

/-- C3: for every byte sequence `x`, `slip.decode(slip.encode(x)) == x` and
`slip.is_valid(slip.encode(x))` is true. -/
theorem slip_decode_encode_roundtrip (x : List Byte) :
    slipDecode (slipEncode x) = some x ∧ slipIsValid (slipEncode x) = true := by
  refine ⟨?_, slipIsValid_encode x⟩
  unfold slipDecode
  rw [slipIsValid_encode x, if_pos rfl, pyStrip_slipEncode, replace2_end_escape,
    replace2_esc_escape]

/-! ## C10 — bundle parsing does not terminate on a negative element size

On `loopingBundleDgram` the element loop reads the int32 size `-4` at index
16, slices an empty element, and continues at `20 + (-4) = 16`: the index
does not increase and the `while` loop never exits.  In the fuelled
embedding one loop iteration leaves the state unchanged, so every finite
fuel is exhausted. -/

theorem loopingContents_step (fuel : Nat) :
    parseContentsFuel (fuel + 1) loopingBundleDgram 16 =
      parseContentsFuel fuel loopingBundleDgram 16 := rfl

theorem loopingContents_none :
    ∀ fuel, parseContentsFuel fuel loopingBundleDgram 16 = Option.none
  | 0 => rfl
  | fuel + 1 => (loopingContents_step fuel).trans (loopingContents_none fuel)

/-- C10: evaluating `OscBundle._parse_contents` on a bundle whose single
element declares size `-4`: each iteration of the loop returns to index 16
(the index does **not** strictly increase), and parsing fails to terminate —
for every fuel bound the loop is still running, at bundle level and at
packet level. -/
theorem bundle_parse_loops_forever (fuel : Nat) (now : ℚ) :
    parseContentsFuel (fuel + 1) loopingBundleDgram 16 =
      parseContentsFuel fuel loopingBundleDgram 16 ∧
    parseContentsFuel fuel loopingBundleDgram 16 = Option.none ∧
    oscPacketParse loopingBundleDgram now fuel = Option.none := by
  refine ⟨loopingContents_step fuel, loopingContents_none fuel, ?_⟩
  cases fuel with
  | zero => rfl
  | succ f =>
    have hstep : oscPacketParse loopingBundleDgram now (f + 1) =
        ((parseContentsFuel f loopingBundleDgram 16).bind
          (fun contents => some (OscBundle.mk IMMEDIATELY contents))).bind
          (fun b => some (pySortedByTime (timedMsgOfBundle b now))) := rfl
    rw [hstep, loopingContents_none f]
    rfl

/-! ## C2 — effective times and stable time-sorting of packets -/

mutual

/-- The code's effective-time assignment agrees with the specification's
"nearest enclosing bundle tag, replaced by `now` when immediate or past". -/
theorem timedMsg_eq_spec_bundle :
    ∀ (b : OscBundle) (now : ℚ), timedMsgOfBundle b now = specTimedMsgs b now
  | .mk ts cs, now => timedMsg_eq_spec_contents ts cs now

theorem timedMsg_eq_spec_contents :
    ∀ (ts : ℚ) (cs : List BundleContent) (now : ℚ),
      timedMsgOfContents ts cs now =
        (nearestTagMsgsContents ts cs).map
          (fun p => ⟨specEffectiveTime p.1 now, p.2⟩)
  | _, [], _ => rfl
  | ts, .message m :: rest, now => by
    rw [timedMsgOfContents, nearestTagMsgsContents, List.map_cons,
      timedMsg_eq_spec_contents ts rest now]
    unfold specEffectiveTime
    split <;> rfl
  | ts, .bundle b :: rest, now => by
    rw [timedMsgOfContents, nearestTagMsgsContents, List.map_append,
      timedMsg_eq_spec_contents ts rest now, timedMsg_eq_spec_bundle b now]
    rfl

end

theorem insortByTime_perm (x : TimedMessage) (l : List TimedMessage) :
    (insortByTime x l).Perm (x :: l) := by
  induction l with
  | nil => exact List.Perm.refl _
  | cons y ys ih =>
    unfold insortByTime
    split
    · exact ((ih.cons y).trans (List.Perm.swap x y ys)).symm.symm
    · exact List.Perm.refl _

theorem pySortedByTime_foldl_perm (l : List TimedMessage) :
    ∀ acc, ((l.foldl (fun a x => insortByTime x a) acc)).Perm (acc ++ l) := by
  induction l with
  | nil => intro acc; simp
  | cons x xs ih =>
    intro acc
    rw [List.foldl_cons]
    have h1 := ih (insortByTime x acc)
    have h2 : (insortByTime x acc ++ xs).Perm ((x :: acc) ++ xs) :=
      (insortByTime_perm x acc).append_right xs
    have h3 : ((x :: acc) ++ xs).Perm (acc ++ x :: xs) := by
      rw [List.cons_append]
      exact List.perm_middle.symm
    exact (h1.trans h2).trans h3

theorem pySortedByTime_perm (l : List TimedMessage) : (pySortedByTime l).Perm l := by
  simpa using pySortedByTime_foldl_perm l []

theorem mem_insortByTime (a x : TimedMessage) (l : List TimedMessage) :
    a ∈ insortByTime x l ↔ a = x ∨ a ∈ l := by
  constructor
  · intro h
    have := (insortByTime_perm x l).mem_iff.mp h
    simpa using this
  · intro h
    apply (insortByTime_perm x l).mem_iff.mpr
    simpa using h

theorem insortByTime_sorted (x : TimedMessage) (l : List TimedMessage)
    (h : l.Pairwise (fun a b => a.time ≤ b.time)) :
    (insortByTime x l).Pairwise (fun a b => a.time ≤ b.time) := by
  induction l with
  | nil => simp [insortByTime]
  | cons y ys ih =>
    rcases List.pairwise_cons.mp h with ⟨hy, hys⟩
    unfold insortByTime
    split
    · rename_i hle
      refine List.pairwise_cons.mpr ⟨?_, ih hys⟩
      intro a ha
      rcases (mem_insortByTime a x ys).mp ha with rfl | ha
      · exact hle
      · exact hy a ha
    · rename_i hgt
      refine List.pairwise_cons.mpr ⟨?_, h⟩
      intro a ha
      rcases List.mem_cons.mp ha with rfl | ha
      · exact le_of_not_le hgt
      · exact le_trans (le_of_not_le hgt) (hy a ha)

theorem pySortedByTime_foldl_sorted (l : List TimedMessage) :
    ∀ acc, acc.Pairwise (fun a b => a.time ≤ b.time) →
      (l.foldl (fun a x => insortByTime x a) acc).Pairwise (fun a b => a.time ≤ b.time) := by
  induction l with
  | nil => intro acc h; exact h
  | cons x xs ih =>
    intro acc h
    exact ih (insortByTime x acc) (insortByTime_sorted x acc h)

theorem pySortedByTime_sorted (l : List TimedMessage) :
    (pySortedByTime l).Pairwise (fun a b => a.time ≤ b.time) :=
  pySortedByTime_foldl_sorted l [] (by simp)

theorem insortLex_map_snd (x : TimedMessage) (n : Nat) (accL : List (Nat × TimedMessage))
    (hidx : ∀ p ∈ accL, p.1 < n) :
    insortByTime x (accL.map Prod.snd) = (insortLex (n, x) accL).map Prod.snd := by
  induction accL with
  | nil => rfl
  | cons p rest ih =>
    have hp : p.1 < n := hidx p (by simp)
    have hrest : ∀ q ∈ rest, q.1 < n := fun q hq => hidx q (by simp [hq])
    rw [List.map_cons]
    unfold insortByTime insortLex
    by_cases hle : p.2.time ≤ x.time
    · rw [if_pos hle, if_pos (by
        rcases lt_or_eq_of_le hle with hlt | heq
        · exact Or.inl hlt
        · exact Or.inr ⟨heq, hp⟩)]
      rw [List.map_cons, ih hrest]
    · rw [if_neg hle, if_neg (by
        rintro (hlt | ⟨heq, _⟩)
        · exact hle hlt.le
        · exact hle heq.le)]
      rfl

theorem mem_insortLex (a x : Nat × TimedMessage) (l : List (Nat × TimedMessage)) :
    a ∈ insortLex x l → a = x ∨ a ∈ l := by
  induction l with
  | nil => intro h; simpa [insortLex] using h
  | cons y ys ih =>
    unfold insortLex
    split
    · intro h
      rcases List.mem_cons.mp h with rfl | h
      · exact Or.inr (by simp)
      · rcases ih h with rfl | h
        · exact Or.inl rfl
        · exact Or.inr (by simp [h])
    · intro h
      rcases List.mem_cons.mp h with rfl | h
      · exact Or.inl rfl
      · exact Or.inr h

theorem sortLex_foldl_map_snd (l : List TimedMessage) :
    ∀ (n : Nat) (accL : List (Nat × TimedMessage)),
      (∀ p ∈ accL, p.1 < n) →
      (l.foldl (fun a x => insortByTime x a) (accL.map Prod.snd)) =
        ((List.enumFrom n l).foldl (fun a x => insortLex x a) accL).map Prod.snd := by
  induction l with
  | nil => intro n accL _; rfl
  | cons x xs ih =>
    intro n accL hidx
    rw [List.enumFrom_cons, List.foldl_cons, List.foldl_cons,
      insortLex_map_snd x n accL hidx]
    apply ih (n + 1)
    intro p hp
    rcases mem_insortLex p (n, x) accL hp with rfl | hp
    · simp
    · exact Nat.lt_succ_of_lt (hidx p hp)

/-- Python's stable sort by time is exactly the sort by the strict
lexicographic (time, document index) order. -/
theorem pySortedByTime_eq_sortLexEnum (l : List TimedMessage) :
    pySortedByTime l = sortLexEnum l := by
  unfold pySortedByTime sortLexEnum
  rw [show l.enum = List.enumFrom 0 l from rfl]
  exact sortLex_foldl_map_snd l 0 [] (by simp)

/-- C2: for every datagram that parses as a packet (at any loop fuel), the
message list is the document-order list of the specification's
effective-time assignment — each message paired with its nearest enclosing
bundle's tag, replaced by `now` when that tag is `IMMEDIATELY` or in the
past — reordered by the unique ascending-by-time permutation that is stable
with respect to document order (single messages get time `now` and a
singleton list). -/
theorem osc_packet_effective_times_sorted (dgram : Dgram) (now : ℚ) (fuel : Nat)
    (result : List TimedMessage) (h : oscPacketParse dgram now fuel = some result) :
    ∃ doc : List TimedMessage,
      ((∃ b, parseBundleFuel fuel dgram = some b ∧ doc = specTimedMsgs b now) ∨
        (dgram_is_bundle dgram = false ∧
          ∃ m, oscMessageParse dgram = some m ∧ doc = [⟨now, m⟩])) ∧
      result = sortLexEnum doc ∧ result.Perm doc ∧
      result.Pairwise (fun a b => a.time ≤ b.time) := by
  unfold oscPacketParse at h
  split_ifs at h with h1 h2
  · rcases Option.bind_eq_some.mp h with ⟨b, hb, hres⟩
    have hres' : result = pySortedByTime (timedMsgOfBundle b now) :=
      (Option.some.inj hres).symm
    refine ⟨specTimedMsgs b now, Or.inl ⟨b, hb, rfl⟩, ?_, ?_, ?_⟩
    · rw [hres', timedMsg_eq_spec_bundle, pySortedByTime_eq_sortLexEnum]
    · rw [hres', timedMsg_eq_spec_bundle]
      exact pySortedByTime_perm _
    · rw [hres']
      exact pySortedByTime_sorted _
  · rcases Option.bind_eq_some.mp h with ⟨m, hm, hres⟩
    have hres' : result = [⟨now, m⟩] := (Option.some.inj hres).symm
    refine ⟨[⟨now, m⟩], Or.inr ⟨by simpa using h1, m, hm, rfl⟩, ?_, ?_, ?_⟩
    · rw [hres']
      rfl
    · exact hres' ▸ List.Perm.refl _
    · rw [hres']
      simp

/-- C2 witness: the theorem applied to a concrete bundle datagram holding one
`/SYNC` message with the `IMMEDIATELY` tag, at `now = 5` and fuel 3. -/
theorem osc_packet_effective_times_sorted_witness :
    ∃ result, oscPacketParse
        (bundleMagic ++ ntpImmediatelyBytes ++ [0, 0, 0, 12] ++
          [0x2F, 0x53, 0x59, 0x4E, 0x43, 0, 0, 0, 0x2C, 0, 0, 0]) 5 3 = some result ∧
      ∃ doc : List TimedMessage,
        ((∃ b, parseBundleFuel 3
            (bundleMagic ++ ntpImmediatelyBytes ++ [0, 0, 0, 12] ++
              [0x2F, 0x53, 0x59, 0x4E, 0x43, 0, 0, 0, 0x2C, 0, 0, 0]) = some b ∧
            doc = specTimedMsgs b 5) ∨
          (dgram_is_bundle
              (bundleMagic ++ ntpImmediatelyBytes ++ [0, 0, 0, 12] ++
                [0x2F, 0x53, 0x59, 0x4E, 0x43, 0, 0, 0, 0x2C, 0, 0, 0]) = false ∧
            ∃ m, oscMessageParse
                (bundleMagic ++ ntpImmediatelyBytes ++ [0, 0, 0, 12] ++
                  [0x2F, 0x53, 0x59, 0x4E, 0x43, 0, 0, 0, 0x2C, 0, 0, 0]) = some m ∧
              doc = [⟨5, m⟩])) ∧
        result = sortLexEnum doc ∧ result.Perm doc ∧
        result.Pairwise (fun a b => a.time ≤ b.time) :=
  ⟨_, rfl, osc_packet_effective_times_sorted _ 5 3 _ rfl⟩

/-! ## C4, C5, C6 — the dispatcher's address matching -/

/-- What a trailing `[…]*$` matches: a run of class characters followed by
nothing or a final newline. -/
theorem reMatch_star_end (cls : StarClass) (s : List Char) :
    reMatch [.star cls, .endAnchor] s = true ↔
      ∃ w t, s = w ++ t ∧ (∀ c ∈ w, starClassMem cls c = true) ∧
        (t = [] ∨ t = ['\n']) := by
  induction s with
  | nil =>
    constructor
    · intro _
      exact ⟨[], [], rfl, by simp, Or.inl rfl⟩
    · intro _
      simp [reMatch]
  | cons x s' ih =>
    have hstep : reMatch [.star cls, .endAnchor] (x :: s') =
        (((x :: s') == ['\n']) || (starClassMem cls x && reMatch [.star cls, .endAnchor] s')) := by
      simp [reMatch]
    rw [hstep]
    simp only [Bool.or_eq_true, Bool.and_eq_true, beq_iff_eq]
    constructor
    · rintro (heq | ⟨hmem, hrec⟩)
      · exact ⟨[], ['\n'], heq, by simp, Or.inr rfl⟩
      · obtain ⟨w, t, heq, hw, ht⟩ := ih.mp hrec
        exact ⟨x :: w, t, by simp [heq], by
          intro c hc
          rcases List.mem_cons.mp hc with rfl | hc
          · exact hmem
          · exact hw c hc, ht⟩
    · rintro ⟨w, t, heq, hw, ht⟩
      cases w with
      | nil =>
        rcases ht with rfl | rfl
        · simp at heq
        · exact Or.inl (by simpa using heq)
      | cons c w' =>
        simp only [List.cons_append, List.cons.injEq] at heq
        obtain ⟨rfl, heq'⟩ := heq
        refine Or.inr ⟨hw x (by simp), ih.mpr ⟨w', t, heq', ?_, ht⟩⟩
        intro d hd
        exact hw d (by simp [hd])

theorem reMatch_lit_cons (c : Char) (toks : List ReTok) (x : Char) (s : List Char) :
    reMatch (.lit c :: toks) (x :: s) = ((x == c) && reMatch toks s) := by
  simp [reMatch]

theorem reMatch_lit_nil (c : Char) (toks : List ReTok) :
    reMatch (.lit c :: toks) [] = false := by
  simp [reMatch]

theorem reMatch_end_only (s : List Char) :
    reMatch [.endAnchor] s = true ↔ (s = [] ∨ s = ['\n']) := by
  have hstep : reMatch [ReTok.endAnchor] s = ((s.isEmpty || s == ['\n']) && reMatch [] s) := by
    simp only [reMatch]
  have hnil : reMatch ([] : List ReTok) s = true := by
    simp only [reMatch]
  rw [hstep, hnil, Bool.and_true, Bool.or_eq_true, beq_iff_eq, List.isEmpty_iff]

/-- Matching a fully literal pattern followed by `$`. -/
theorem reMatch_lits (q : List Char) :
    ∀ a, reMatch (q.map ReTok.lit ++ [.endAnchor]) a = true ↔ (a = q ∨ a = q ++ ['\n']) := by
  induction q with
  | nil =>
    intro a
    simpa using reMatch_end_only a
  | cons c q' ih =>
    intro a
    simp only [List.map_cons, List.cons_append]
    cases a with
    | nil =>
      rw [reMatch_lit_nil]
      constructor
      · intro h
        cases h
      · rintro (h | h) <;> simp at h
    | cons x s =>
      rw [reMatch_lit_cons]
      simp only [Bool.and_eq_true, beq_iff_eq]
      rw [ih s]
      constructor
      · rintro ⟨rfl, rfl | rfl⟩
        · exact Or.inl rfl
        · exact Or.inr rfl
      · rintro (h | h) <;> simp only [List.cons_append, List.cons.injEq] at h <;>
          exact ⟨h.1, by simp [h.2]⟩

/-- On queries without `*` and `?`, `compileQuery` is all-literal. -/
theorem compileQuery_no_meta (q : List Char) (h1 : '*' ∉ q) (h2 : '?' ∉ q) :
    compileQuery q = q.map ReTok.lit ++ [.endAnchor] := by
  unfold compileQuery
  congr 1
  apply List.map_congr_left
  intro c hc
  have hc1 : ¬(c == '?') = true := by
    simp only [beq_iff_eq]
    rintro rfl
    exact h2 hc
  have hc2 : ¬(c == '*') = true := by
    simp only [beq_iff_eq]
    rintro rfl
    exact h1 hc
  simp [hc1, hc2]

/-- Wildcard-free matching is equality with the query, up to the `$`-before-
final-newline artifact (excluded here by the no-newline hypothesis). -/
theorem matchesAddr_no_meta (q addr : List Char)
    (hq1 : '*' ∉ q) (hq2 : '?' ∉ q) (ha : '*' ∉ addr) (hnl : '\n' ∉ addr) :
    matchesAddr q addr = true ↔ addr = q := by
  unfold matchesAddr
  rw [compileQuery_no_meta q hq1 hq2]
  have hg : addr.contains '*' = false := by
    rw [List.contains_eq_any_beq, List.any_eq_false]
    intro c hc
    simp only [beq_iff_eq]
    rintro rfl
    exact ha hc
  rw [hg]
  simp only [Bool.false_and, Bool.or_false]
  rw [reMatch_lits]
  constructor
  · rintro (rfl | rfl)
    · rfl
    · exact absurd (by simp : '\n' ∈ q ++ ['\n']) hnl
  · rintro rfl
    exact Or.inl rfl

/-- C4 counterexample: `/a-b` is a literal address that starts with `/` and
contains no further `/`, yet the query pattern `/*` does not match it — a
handler mapped at `/a-b` is not yielded for `handlers_for_address("/*")` —
because the built class `[\w|\+]*` does not contain `-`. -/
theorem slash_star_match_counterexample :
    (['/', 'a', '-', 'b'].head? = some '/' ∧ '/' ∉ ['a', '-', 'b']) ∧
    matchesAddr ['/', '*'] ['/', 'a', '-', 'b'] = false ∧
    handlersForAddress (dispatcherMap Dispatcher.empty ['/', 'a', '-', 'b'] 7) ['/', '*'] = [] := by
  have hm : matchesAddr ['/', '*'] ['/', 'a', '-', 'b'] = false := by
    simp [matchesAddr, compileQuery, reMatch, starClassMem, isWordChar, compileRegistered]
  refine ⟨⟨rfl, by decide⟩, hm, ?_⟩
  simp [handlersForAddress, dispatcherMap, Dispatcher.empty, hm]

/-- C4 amended: for a registered literal address `a` (no `*`, so only the
first matching direction applies; ASCII so that the model of `\w` is
faithful), the query `/*` matches `a` iff `a` is `/` followed by a run of
word characters, `|`, or `+`, optionally ending in a final newline (a `$`
artifact) — not iff `a` merely avoids a second `/`. -/
theorem slash_star_match_characterization (a : List Char)
    (hstar : '*' ∉ a) (hascii : ∀ c ∈ a, c.toNat < 128) :
    matchesAddr ['/', '*'] a = true ↔
      ∃ w t, a = '/' :: (w ++ t) ∧
        (∀ c ∈ w, (isWordChar c || c == '|' || c == '+') = true) ∧
        (t = [] ∨ t = ['\n']) := by
  unfold matchesAddr
  have hg : a.contains '*' = false := by
    rw [List.contains_eq_any_beq, List.any_eq_false]
    intro c hc
    simp only [beq_iff_eq]
    rintro rfl
    exact hstar hc
  rw [hg]
  simp only [Bool.false_and, Bool.or_false]
  have hq : compileQuery ['/', '*'] = [.lit '/', .star .wordBarPlus, .endAnchor] := rfl
  rw [hq]
  cases a with
  | nil =>
    constructor
    · intro h
      exact absurd h (by simp [reMatch])
    · rintro ⟨w, t, h, -, -⟩
      simp at h
  | cons x s =>
    have hstep : reMatch [.lit '/', .star .wordBarPlus, .endAnchor] (x :: s) =
        ((x == '/') && reMatch [.star .wordBarPlus, .endAnchor] s) := by
      simp [reMatch]
    rw [hstep]
    simp only [Bool.and_eq_true, beq_iff_eq]
    rw [reMatch_star_end]
    constructor
    · rintro ⟨rfl, w, t, rfl, hw, ht⟩
      exact ⟨w, t, rfl, fun c hc => hw c hc, ht⟩
    · rintro ⟨w, t, h, hw, ht⟩
      simp only [List.cons.injEq] at h
      obtain ⟨rfl, rfl⟩ := h
      exact ⟨rfl, w, t, rfl, fun c hc => hw c hc, ht⟩

/-- C4 witness: the characterization applied at the concrete address `/a`. -/
theorem slash_star_match_characterization_witness :
    ('*' ∉ ['/', 'a']) ∧ (∀ c ∈ ['/', 'a'], c.toNat < 128) ∧
      (matchesAddr ['/', '*'] ['/', 'a'] = true ↔
        ∃ w t, ['/', 'a'] = '/' :: (w ++ t) ∧
          (∀ c ∈ w, (isWordChar c || c == '|' || c == '+') = true) ∧
          (t = [] ∨ t = ['\n'])) :=
  ⟨by decide, by decide, slash_star_match_characterization _ (by decide) (by decide)⟩

/-- C5 counterexample: matching is not symmetric.  A handler registered at
`/*` is yielded for the query address `/foo/bar` (the unanchored second
direction prefix-matches), but a handler registered at `/foo/bar` is not
yielded for the query `/*`. -/
theorem matches_symmetry_counterexample :
    matchesAddr ['/', 'f', 'o', 'o', '/', 'b', 'a', 'r'] ['/', '*'] = true ∧
    matchesAddr ['/', '*'] ['/', 'f', 'o', 'o', '/', 'b', 'a', 'r'] = false ∧
    handlersForAddress (dispatcherMap Dispatcher.empty ['/', '*'] 1)
      ['/', 'f', 'o', 'o', '/', 'b', 'a', 'r'] = [1] ∧
    handlersForAddress (dispatcherMap Dispatcher.empty ['/', 'f', 'o', 'o', '/', 'b', 'a', 'r'] 1)
      ['/', '*'] = [] := by
  have h1 : matchesAddr ['/', 'f', 'o', 'o', '/', 'b', 'a', 'r'] ['/', '*'] = true := by
    simp [matchesAddr, compileQuery, reMatch, starClassMem, isWordChar, compileRegistered]
  have h2 : matchesAddr ['/', '*'] ['/', 'f', 'o', 'o', '/', 'b', 'a', 'r'] = false := by
    simp [matchesAddr, compileQuery, reMatch, starClassMem, isWordChar, compileRegistered]
  refine ⟨h1, h2, ?_, ?_⟩
  · simp [handlersForAddress, dispatcherMap, Dispatcher.empty, h1]
  · simp [handlersForAddress, dispatcherMap, Dispatcher.empty, h2]

/-- C5 amended: the match relation is symmetric on addresses free of pattern
characters and newlines — there both directions reduce to string equality.
In general it is asymmetric (see the counterexample). -/
theorem matchesAddr_symmetric_on_literals (p a : List Char)
    (hp : '*' ∉ p ∧ '?' ∉ p ∧ '\n' ∉ p) (ha : '*' ∉ a ∧ '?' ∉ a ∧ '\n' ∉ a) :
    matchesAddr a p = matchesAddr p a := by
  have h1 := matchesAddr_no_meta a p ha.1 ha.2.1 hp.1 hp.2.2
  have h2 := matchesAddr_no_meta p a hp.1 hp.2.1 ha.1 ha.2.2
  by_cases h : p = a
  · subst h
    rfl
  · have e1 : matchesAddr a p = false := by
      rw [← Bool.not_eq_true]
      intro hc
      exact h (h1.mp hc)
    have e2 : matchesAddr p a = false := by
      rw [← Bool.not_eq_true]
      intro hc
      exact h ((h2.mp hc).symm)
    rw [e1, e2]

/-- C5 witness: symmetry at the concrete literal addresses `/x` and `/y`. -/
theorem matchesAddr_symmetric_on_literals_witness :
    ('*' ∉ ['/', 'x'] ∧ '?' ∉ ['/', 'x'] ∧ '\n' ∉ ['/', 'x']) ∧
      ('*' ∉ ['/', 'y'] ∧ '?' ∉ ['/', 'y'] ∧ '\n' ∉ ['/', 'y']) ∧
      matchesAddr ['/', 'y'] ['/', 'x'] = matchesAddr ['/', 'x'] ['/', 'y'] :=
  ⟨by decide, by decide,
    matchesAddr_symmetric_on_literals ['/', 'x'] ['/', 'y'] (by decide) (by decide)⟩

/-- C6 counterexample: after `map("/*", h1); map("/foo/bar", h2)`,
`handlers_for_address("/foo/bar")` yields `[h1, h2]` — the table is walked
in address-registration order — and not `[h2, h1]` as claimed. -/
theorem handlers_for_order_counterexample :
    handlersForAddress
        (dispatcherMap (dispatcherMap Dispatcher.empty ['/', '*'] 1)
          ['/', 'f', 'o', 'o', '/', 'b', 'a', 'r'] 2)
        ['/', 'f', 'o', 'o', '/', 'b', 'a', 'r'] ≠ [2, 1] := by
  have h1 : matchesAddr ['/', 'f', 'o', 'o', '/', 'b', 'a', 'r'] ['/', '*'] = true := by
    simp [matchesAddr, compileQuery, reMatch, starClassMem, isWordChar, compileRegistered]
  have h2 : matchesAddr ['/', 'f', 'o', 'o', '/', 'b', 'a', 'r']
      ['/', 'f', 'o', 'o', '/', 'b', 'a', 'r'] = true := by
    simp [matchesAddr, compileQuery, reMatch, starClassMem, isWordChar, compileRegistered]
  simp [handlersForAddress, dispatcherMap, Dispatcher.empty, h1, h2]

/-- C6 amended: the concrete scenario yields `[h1, h2]`: handlers come in
the registration order of the registered addresses (the insertion-ordered
table), the wildcard registration first. -/
theorem handlers_for_registration_order :
    handlersForAddress
        (dispatcherMap (dispatcherMap Dispatcher.empty ['/', '*'] 1)
          ['/', 'f', 'o', 'o', '/', 'b', 'a', 'r'] 2)
        ['/', 'f', 'o', 'o', '/', 'b', 'a', 'r'] = [1, 2] := by
  have h1 : matchesAddr ['/', 'f', 'o', 'o', '/', 'b', 'a', 'r'] ['/', '*'] = true := by
    simp [matchesAddr, compileQuery, reMatch, starClassMem, isWordChar, compileRegistered]
  have h2 : matchesAddr ['/', 'f', 'o', 'o', '/', 'b', 'a', 'r']
      ['/', 'f', 'o', 'o', '/', 'b', 'a', 'r'] = true := by
    simp [matchesAddr, compileQuery, reMatch, starClassMem, isWordChar, compileRegistered]
  simp [handlersForAddress, dispatcherMap, Dispatcher.empty, h1, h2]

/-! ## C1 — message build/parse round-trip

### Reading back what the writers wrote -/

theorem pySlice_nat4 (l : List α) (i : Nat) :
    pySlice l (i : Int) ((i : Int) + 4) = (l.drop i).take 4 := by
  have := pySlice_nat l i 4
  simpa using this

theorem pySlice_nat8 (l : List α) (i : Nat) :
    pySlice l (i : Int) ((i : Int) + 8) = (l.drop i).take 8 := by
  have := pySlice_nat l i 8
  simpa using this

theorem take_append_of_length (l₁ l₂ : List α) (n : Nat) (h : l₁.length = n) :
    (l₁ ++ l₂).take n = l₁ := by
  subst h
  exact List.take_left _ _

theorem drop_add_of_drop (dgram : Dgram) (i : Nat) (p rest : Dgram)
    (h : dgram.drop i = p ++ rest) : dgram.drop (i + p.length) = rest := by
  have h2 : dgram.drop (i + p.length) = (dgram.drop i).drop p.length := by
    rw [List.drop_drop, Nat.add_comm]
  rw [h2, h, List.drop_left]

theorem get_int_of_drop (dgram : Dgram) (i : Nat) (bs rest : List Byte)
    (h : dgram.drop i = bs ++ rest) (hlen : bs.length = 4) :
    get_int dgram (i : Int) = some (toSigned 32 (beNat bs), (i : Int) + 4) := by
  have hsl : (bs ++ rest).take 4 = bs := take_append_of_length _ _ _ hlen
  unfold get_int
  simp only [pySliceFrom_nat, pySlice_nat4, h, hsl, hlen, List.length_append]
  simp

theorem get_int_of_write (dgram : Dgram) (i : Nat) (v : Int) (bs rest : List Byte)
    (hw : write_int v = some bs) (h : dgram.drop i = bs ++ rest) :
    get_int dgram (i : Int) = some (v, (i : Int) + 4) ∧ bs.length = 4 := by
  unfold write_int at hw
  split_ifs at hw with hr
  · have hbs : bs = beBytes 4 (v % 2 ^ 32).toNat := (Option.some.inj hw).symm
    have hlen : bs.length = 4 := by rw [hbs, beBytes_length]
    refine ⟨?_, hlen⟩
    have hts : toSigned 32 (beNat bs) = v := by
      rw [hbs]
      rw [beNat_beBytes 4 _ (by
        have h1 : (0 : Int) ≤ v % 2 ^ 32 := Int.emod_nonneg v (by norm_num)
        have h2 : v % 2 ^ 32 < 2 ^ 32 := Int.emod_lt_of_pos v (by norm_num)
        omega)]
      exact toSigned32_emod v hr.1 hr.2
    rw [get_int_of_drop dgram i bs rest h hlen, hts]

theorem get_int64_of_write (dgram : Dgram) (i : Nat) (v : Int) (bs rest : List Byte)
    (hw : write_int64 v = some bs) (h : dgram.drop i = bs ++ rest) :
    get_int64 dgram (i : Int) = some (v, (i : Int) + 8) ∧ bs.length = 8 := by
  unfold write_int64 at hw
  split_ifs at hw with hr
  · have hbs : bs = beBytes 8 (v % 2 ^ 64).toNat := (Option.some.inj hw).symm
    have hlen : bs.length = 8 := by rw [hbs, beBytes_length]
    refine ⟨?_, hlen⟩
    have hsl : (bs ++ rest).take 8 = bs := take_append_of_length _ _ _ hlen
    have hts : toSigned 64 (beNat bs) = v := by
      rw [hbs]
      rw [beNat_beBytes 8 _ (by
        have h1 : (0 : Int) ≤ v % 2 ^ 64 := Int.emod_nonneg v (by norm_num)
        have h2 : v % 2 ^ 64 < 2 ^ 64 := Int.emod_lt_of_pos v (by norm_num)
        omega)]
      exact toSigned64_emod v hr.1 hr.2
    unfold get_int64
    simp only [pySliceFrom_nat, pySlice_nat8, h, hsl, hlen, hts, List.length_append]
    simp

theorem get_float_of_drop (dgram : Dgram) (i : Nat) (bits : Nat) (rest : List Byte)
    (hbits : bits < 2 ^ 32) (h : dgram.drop i = beBytes 4 bits ++ rest) :
    get_float dgram (i : Int) = some (bits, (i : Int) + 4) := by
  have hlen : (beBytes 4 bits).length = 4 := beBytes_length 4 bits
  have hsl : (beBytes 4 bits ++ rest).take 4 = beBytes 4 bits :=
    take_append_of_length _ _ _ hlen
  have hbe : beNat (beBytes 4 bits) = bits := beNat_beBytes 4 bits (by norm_num; omega)
  have hlen_drop : (dgram.drop i).length = 4 + rest.length := by
    rw [h]
    simp [hlen]
  unfold get_float
  simp only [pySliceFrom_nat, hlen_drop]
  simp only [eq_false (by omega : ¬(4 + rest.length < 4)), if_false]
  simp only [pySlice_nat4, h, hsl, hlen, hbe]
  simp

theorem get_double_of_drop (dgram : Dgram) (i : Nat) (bits : Nat) (rest : List Byte)
    (hbits : bits < 2 ^ 64) (h : dgram.drop i = beBytes 8 bits ++ rest) :
    get_double dgram (i : Int) = some (bits, (i : Int) + 8) := by
  have hlen : (beBytes 8 bits).length = 8 := beBytes_length 8 bits
  have hsl : (beBytes 8 bits ++ rest).take 8 = beBytes 8 bits :=
    take_append_of_length _ _ _ hlen
  have hbe : beNat (beBytes 8 bits) = bits := beNat_beBytes 8 bits (by norm_num; omega)
  unfold get_double
  simp only [pySliceFrom_nat, pySlice_nat8, h, hsl, hlen, hbe, List.length_append]
  simp

theorem get_rgba_of_write (dgram : Dgram) (i : Nat) (v : Int) (bs rest : List Byte)
    (hw : write_rgba v = some bs) (h : dgram.drop i = bs ++ rest) :
    get_rgba dgram (i : Int) = some (v.toNat, (i : Int) + 4) ∧ bs.length = 4 := by
  unfold write_rgba at hw
  split_ifs at hw with hr
  · have hbs : bs = beBytes 4 v.toNat := (Option.some.inj hw).symm
    have hlen : bs.length = 4 := by rw [hbs, beBytes_length]
    refine ⟨?_, hlen⟩
    have hsl : (bs ++ rest).take 4 = bs := take_append_of_length _ _ _ hlen
    have hbe : beNat bs = v.toNat := by
      rw [hbs]
      exact beNat_beBytes 4 _ (by norm_num; omega)
    unfold get_rgba
    simp only [pySliceFrom_nat, pySlice_nat4, h, hsl, hlen, hbe, List.length_append]
    simp

theorem get_midi_of_write (dgram : Dgram) (i : Nat) (p : Nat × Nat × Nat × Nat)
    (rest : List Byte)
    (hp : p.1 < 256 ∧ p.2.1 < 256 ∧ p.2.2.1 < 256 ∧ p.2.2.2 < 256)
    (h : dgram.drop i =
      write_midi ((p.1 : Int), (p.2.1 : Int), (p.2.2.1 : Int), (p.2.2.2 : Int)) ++ rest) :
    get_midi dgram (i : Int) = some (p, (i : Int) + 4) := by
  obtain ⟨h1, h2, h3, h4⟩ := hp
  have he1 : ((p.1 : Int) % 256).toNat = p.1 := by omega
  have he2 : ((p.2.1 : Int) % 256).toNat = p.2.1 := by omega
  have he3 : ((p.2.2.1 : Int) % 256).toNat = p.2.2.1 := by omega
  have he4 : ((p.2.2.2 : Int) % 256).toNat = p.2.2.2 := by omega
  have hw : write_midi ((p.1 : Int), (p.2.1 : Int), (p.2.2.1 : Int), (p.2.2.2 : Int)) =
      beBytes 4 (p.1 * 2 ^ 24 + p.2.1 * 2 ^ 16 + p.2.2.1 * 2 ^ 8 + p.2.2.2) := by
    unfold write_midi
    rw [he1, he2, he3, he4]
  rw [hw] at h
  have hlen : (beBytes 4 (p.1 * 2 ^ 24 + p.2.1 * 2 ^ 16 + p.2.2.1 * 2 ^ 8 + p.2.2.2)).length = 4 :=
    beBytes_length _ _
  have hsl : (beBytes 4 (p.1 * 2 ^ 24 + p.2.1 * 2 ^ 16 + p.2.2.1 * 2 ^ 8 + p.2.2.2) ++
      rest).take 4 = beBytes 4 (p.1 * 2 ^ 24 + p.2.1 * 2 ^ 16 + p.2.2.1 * 2 ^ 8 + p.2.2.2) :=
    take_append_of_length _ _ _ hlen
  have hbe : beNat (beBytes 4 (p.1 * 2 ^ 24 + p.2.1 * 2 ^ 16 + p.2.2.1 * 2 ^ 8 + p.2.2.2)) =
      p.1 * 2 ^ 24 + p.2.1 * 2 ^ 16 + p.2.2.1 * 2 ^ 8 + p.2.2.2 :=
    beNat_beBytes 4 _ (by norm_num; omega)
  have hv1 : (p.1 * 2 ^ 24 + p.2.1 * 2 ^ 16 + p.2.2.1 * 2 ^ 8 + p.2.2.2) / 2 ^ 24 % 256 = p.1 := by
    omega
  have hv2 : (p.1 * 2 ^ 24 + p.2.1 * 2 ^ 16 + p.2.2.1 * 2 ^ 8 + p.2.2.2) / 2 ^ 16 % 256 = p.2.1 := by
    omega
  have hv3 : (p.1 * 2 ^ 24 + p.2.1 * 2 ^ 16 + p.2.2.1 * 2 ^ 8 + p.2.2.2) / 2 ^ 8 % 256 = p.2.2.1 := by
    omega
  have hv4 : (p.1 * 2 ^ 24 + p.2.1 * 2 ^ 16 + p.2.2.1 * 2 ^ 8 + p.2.2.2) % 256 = p.2.2.2 := by
    omega
  unfold get_midi
  simp only [pySliceFrom_nat, pySlice_nat4, h, hsl, hlen, hbe, List.length_append,
    hv1, hv2, hv3, hv4]
  simp

theorem findIdx?_eq_some_of_first (l₁ l₂ : List Byte)
    (h : ∀ c ∈ l₁, (c == 0) = false) :
    (l₁ ++ 0 :: l₂).findIdx? (· == 0) = some l₁.length := by
  induction l₁ with
  | nil => simp [List.findIdx?_cons]
  | cons c cs ih =>
    rw [List.cons_append, List.findIdx?_cons, h c (by simp)]
    simp only [Bool.false_eq_true, if_false]
    rw [List.findIdx?_succ, ih (fun d hd => h d (by simp [hd]))]
    rfl

theorem filter_write_string (s' : List Byte) (h : ∀ c ∈ s', c ≠ 0) (n : Nat) :
    (s' ++ List.replicate n 0).filter (fun b => b != 0) = s' := by
  rw [List.filter_append]
  have h1 : s'.filter (fun b => b != 0) = s' := by
    apply List.filter_eq_self.mpr
    intro a ha
    simpa using h a ha
  have h2 : (List.replicate n 0).filter (fun b => b != 0) = [] := by
    apply List.filter_eq_nil_iff.mpr
    intro a ha
    rw [List.eq_of_mem_replicate ha]
    simp
  rw [h1, h2, List.append_nil]

theorem get_string_of_write (dgram : Dgram) (i : Nat) (str rest : List Byte)
    (h : dgram.drop i = write_string str ++ rest) (hnz : ∀ c ∈ str, c ≠ 0) :
    get_string dgram (i : Int) =
      some (str, (i : Int) + ((write_string str).length : Int)) := by
  have hws_len : (write_string str).length = str.length + (4 - str.length % 4) := by
    unfold write_string
    simp
  have hrepl : List.replicate (4 - str.length % 4) 0 =
      0 :: List.replicate (4 - str.length % 4 - 1) 0 := by
    rw [show 4 - str.length % 4 = (4 - str.length % 4 - 1) + 1 by omega, List.replicate_succ]
    have he : 4 - str.length % 4 - 1 + 1 - 1 = 4 - str.length % 4 - 1 := by omega
    rw [he]
  have hws : write_string str ++ rest =
      str ++ 0 :: (List.replicate (4 - str.length % 4 - 1) 0 ++ rest) := by
    unfold write_string
    rw [hrepl]
    simp
  have hfind : (dgram.drop i).findIdx? (· == 0) = some str.length := by
    rw [h, hws]
    exact findIdx?_eq_some_of_first str _ (fun c hc => by simpa using hnz c hc)
  have hoff : (if str.length % 4 = 0 then str.length + 4
      else str.length + (4 - str.length % 4)) = (write_string str).length := by
    rw [hws_len]
    split <;> omega
  have htake : (dgram.drop i).take (write_string str).length = write_string str := by
    rw [h]
    exact take_append_of_length _ _ _ rfl
  have hfilter : (write_string str).filter (fun b => b != 0) = str := by
    unfold write_string
    exact filter_write_string str hnz _
  unfold get_string
  rw [if_neg (by simp)]
  simp only [Int.toNat_natCast, hfind, hoff, pySliceFrom_nat, pySlice_nat]
  rw [if_neg (by
    rw [h]
    simp)]
  rw [htake, hfilter]

theorem get_blob_of_write (dgram : Dgram) (i : Nat) (val rest bs : List Byte)
    (hlen31 : val.length < 2 ^ 31)
    (hw : write_blob val = some bs) (h : dgram.drop i = bs ++ rest) :
    get_blob dgram (i : Int) = some (val, (i : Int) + (bs.length : Int)) := by
  have hwi : write_int (val.length : Int) = some (beBytes 4 val.length) := by
    unfold write_int
    rw [if_pos ⟨by omega, by omega⟩]
    have hm : ((val.length : Int) % 2 ^ 32).toNat = val.length := by omega
    rw [hm]
  unfold write_blob at hw
  split_ifs at hw with hemp
  rw [hwi] at hw
  have hbs : bs = beBytes 4 val.length ++ val ++
      List.replicate ((4 - (beBytes 4 val.length ++ val).length % 4) % 4) 0 := by
    have := Option.some.inj hw
    rw [← this]
  have hlen4 : (beBytes 4 val.length).length = 4 := beBytes_length _ _
  have hdlen : (beBytes 4 val.length ++ val).length = 4 + val.length := by
    simp [hlen4]
  have hdrop : dgram.drop i = beBytes 4 val.length ++
      (val ++ (List.replicate ((4 - (4 + val.length) % 4) % 4) 0 ++ rest)) := by
    rw [h, hbs, hdlen]
    simp
  have hgi := get_int_of_write dgram i (val.length : Int) (beBytes 4 val.length) _
    hwi hdrop
  unfold get_blob
  rw [hgi.1]
  simp only [Option.bind_eq_bind, Option.some_bind]
  have hcast4 : ((i : Int) + 4) = ((i + 4 : Nat) : Int) := by push_cast; ring
  have hdrop2 : dgram.drop (i + 4) =
      val ++ (List.replicate ((4 - (4 + val.length) % 4) % 4) 0 ++ rest) := by
    have := drop_add_of_drop dgram i _ _ hdrop
    rw [hlen4] at this
    exact this
  have hslice : pySlice dgram ((i : Int) + 4) ((i : Int) + 4 + (val.length : Int)) = val := by
    rw [hcast4, pySlice_nat, hdrop2, take_append_of_length _ _ _ rfl]
  have hlenfrom : ((pySliceFrom dgram (i : Int)).length : Int) =
      ((bs.length : Int) + (rest.length : Int)) := by
    rw [pySliceFrom_nat, h]
    simp
  have hbslen : bs.length = 4 + val.length + (4 - (4 + val.length) % 4) % 4 := by
    rw [hbs, hdlen]
    simp [hlen4]
    omega
  simp only [hlenfrom, hslice]
  rw [if_neg (by
    simp only [not_lt]
    push_cast [hbslen]
    omega)]
  have hidx : (i : Int) + 4 + ((val.length : Int) + -(val.length : Int) % 4) =
      (i : Int) + (bs.length : Int) := by
    have hpad : (-(val.length : Int)) % 4 = (((4 - (4 + val.length) % 4) % 4 : Nat) : Int) := by
      omega
    rw [hpad]
    push_cast [hbslen]
    ring_nf
  rw [hidx]
  rfl

/-! ### Stepping through the type-tag loop -/

theorem parseTags_nil (dgram : Dgram) (index : Int) (params : List PyValue) :
    parseTags dgram [] index [params] = some (params, index) := rfl

theorem parseTags_step_i (dgram : Dgram) (rest : List Byte) (index index' : Int)
    (stack : List (List PyValue)) (v : Int)
    (hg : get_int dgram index = some (v, index')) :
    parseTags dgram (0x69 :: rest) index stack =
      parseTags dgram rest index' (appendTop stack (.int v)) := by
  simp [parseTags, hg]

theorem parseTags_step_h (dgram : Dgram) (rest : List Byte) (index index' : Int)
    (stack : List (List PyValue)) (v : Int)
    (hg : get_int64 dgram index = some (v, index')) :
    parseTags dgram (0x68 :: rest) index stack =
      parseTags dgram rest index' (appendTop stack (.int v)) := by
  simp [parseTags, hg]

theorem parseTags_step_f (dgram : Dgram) (rest : List Byte) (index index' : Int)
    (stack : List (List PyValue)) (v : Nat)
    (hg : get_float dgram index = some (v, index')) :
    parseTags dgram (0x66 :: rest) index stack =
      parseTags dgram rest index' (appendTop stack (.float v)) := by
  simp [parseTags, hg]

theorem parseTags_step_d (dgram : Dgram) (rest : List Byte) (index index' : Int)
    (stack : List (List PyValue)) (v : Nat)
    (hg : get_double dgram index = some (v, index')) :
    parseTags dgram (0x64 :: rest) index stack =
      parseTags dgram rest index' (appendTop stack (.double v)) := by
  simp [parseTags, hg]

theorem parseTags_step_s (dgram : Dgram) (rest : List Byte) (index index' : Int)
    (stack : List (List PyValue)) (v : List Byte)
    (hg : get_string dgram index = some (v, index')) :
    parseTags dgram (0x73 :: rest) index stack =
      parseTags dgram rest index' (appendTop stack (.str v)) := by
  simp [parseTags, hg]

theorem parseTags_step_b (dgram : Dgram) (rest : List Byte) (index index' : Int)
    (stack : List (List PyValue)) (v : List Byte)
    (hg : get_blob dgram index = some (v, index')) :
    parseTags dgram (0x62 :: rest) index stack =
      parseTags dgram rest index' (appendTop stack (.blob v)) := by
  simp [parseTags, hg]

theorem parseTags_step_r (dgram : Dgram) (rest : List Byte) (index index' : Int)
    (stack : List (List PyValue)) (v : Nat)
    (hg : get_rgba dgram index = some (v, index')) :
    parseTags dgram (0x72 :: rest) index stack =
      parseTags dgram rest index' (appendTop stack (.rgba (v : Int))) := by
  simp [parseTags, hg]

theorem parseTags_step_m (dgram : Dgram) (rest : List Byte) (index index' : Int)
    (stack : List (List PyValue)) (v : Nat × Nat × Nat × Nat)
    (hg : get_midi dgram index = some (v, index')) :
    parseTags dgram (0x6D :: rest) index stack =
      parseTags dgram rest index' (appendTop stack (.midi v)) := by
  simp [parseTags, hg]

theorem parseTags_step_T (dgram : Dgram) (rest : List Byte) (index : Int)
    (stack : List (List PyValue)) :
    parseTags dgram (0x54 :: rest) index stack =
      parseTags dgram rest index (appendTop stack (.bool true)) := by
  simp [parseTags]

theorem parseTags_step_F (dgram : Dgram) (rest : List Byte) (index : Int)
    (stack : List (List PyValue)) :
    parseTags dgram (0x46 :: rest) index stack =
      parseTags dgram rest index (appendTop stack (.bool false)) := by
  simp [parseTags]

theorem parseTags_step_N (dgram : Dgram) (rest : List Byte) (index : Int)
    (stack : List (List PyValue)) :
    parseTags dgram (0x4E :: rest) index stack =
      parseTags dgram rest index (appendTop stack .none) := by
  simp [parseTags]

theorem parseTags_step_openBr (dgram : Dgram) (rest : List Byte) (index : Int)
    (stack : List (List PyValue)) :
    parseTags dgram (0x5B :: rest) index stack =
      parseTags dgram rest index ([] :: stack) := by
  simp [parseTags]

theorem parseTags_step_closeBr (dgram : Dgram) (rest : List Byte) (index : Int)
    (top parent : List PyValue) (outer : List (List PyValue)) :
    parseTags dgram (0x5D :: rest) index (top :: parent :: outer) =
      parseTags dgram rest index ((parent ++ [.list top]) :: outer) := by
  simp [parseTags]

/-! ### The tag loop undoes the builder's per-argument writes -/

mutual

theorem parse_entries_arg (dgram : Dgram) (t : TypedArg) (restTags : List Byte)
    (i : Nat) (top : List PyValue) (stack : List (List PyValue)) (p rest : Dgram)
    (hl : legalArg t = true) (hp : payloadOfArg t = some p)
    (hdrop : dgram.drop i = p ++ rest) :
    parseTags dgram ((addArgEntries t).map Prod.fst ++ restTags) (i : Int) (top :: stack) =
      parseTags dgram restTags ((i + p.length : Nat) : Int)
        ((top ++ [pyValueOf t]) :: stack) := by
  cases t with
  | i v =>
    simp only [payloadOfArg] at hp
    have hgi := get_int_of_write dgram i v p rest hp hdrop
    simp only [addArgEntries, List.map_cons, List.map_nil, List.cons_append, List.nil_append]
    rw [parseTags_step_i dgram _ _ _ _ v hgi.1]
    simp only [appendTop, pyValueOf, hgi.2]
    push_cast
    rfl
  | h v =>
    simp only [payloadOfArg] at hp
    have hgi := get_int64_of_write dgram i v p rest hp hdrop
    simp only [addArgEntries, List.map_cons, List.map_nil, List.cons_append, List.nil_append]
    rw [parseTags_step_h dgram _ _ _ _ v hgi.1]
    simp only [appendTop, pyValueOf, hgi.2]
    push_cast
    rfl
  | f bits =>
    simp only [payloadOfArg] at hp
    obtain rfl : write_float bits = p := Option.some.inj hp
    simp only [legalArg, Bool.and_eq_true, decide_eq_true_eq] at hl
    have hgi := get_float_of_drop dgram i bits rest hl.1 hdrop
    simp only [addArgEntries, List.map_cons, List.map_nil, List.cons_append, List.nil_append]
    rw [parseTags_step_f dgram _ _ _ _ bits hgi]
    simp only [appendTop, pyValueOf, write_float, beBytes_length]
    push_cast
    rfl
  | d bits =>
    simp only [payloadOfArg] at hp
    obtain rfl : write_double bits = p := Option.some.inj hp
    simp only [legalArg, Bool.and_eq_true, decide_eq_true_eq] at hl
    have hgi := get_double_of_drop dgram i bits rest hl.1 hdrop
    simp only [addArgEntries, List.map_cons, List.map_nil, List.cons_append, List.nil_append]
    rw [parseTags_step_d dgram _ _ _ _ bits hgi]
    simp only [appendTop, pyValueOf, write_double, beBytes_length]
    push_cast
    rfl
  | s str =>
    simp only [payloadOfArg] at hp
    obtain rfl : write_string str = p := Option.some.inj hp
    simp only [legalArg, List.all_eq_true, Bool.and_eq_true, bne_iff_ne, ne_eq,
      decide_eq_true_eq] at hl
    have hnz : ∀ c ∈ str, c ≠ 0 := fun c hc => (hl c hc).1
    have hgi := get_string_of_write dgram i str rest hdrop hnz
    simp only [addArgEntries, List.map_cons, List.map_nil, List.cons_append, List.nil_append]
    rw [parseTags_step_s dgram _ _ _ _ str hgi]
    simp only [appendTop, pyValueOf]
    push_cast
    rfl
  | b bytes =>
    simp only [payloadOfArg] at hp
    simp only [legalArg, Bool.and_eq_true, decide_eq_true_eq] at hl
    have hgi := get_blob_of_write dgram i bytes rest p hl.1.2 hp hdrop
    simp only [addArgEntries, List.map_cons, List.map_nil, List.cons_append, List.nil_append]
    rw [parseTags_step_b dgram _ _ _ _ bytes hgi]
    simp only [appendTop, pyValueOf]
    push_cast
    rfl
  | r v =>
    simp only [payloadOfArg] at hp
    simp only [legalArg, Bool.and_eq_true, decide_eq_true_eq] at hl
    have hgi := get_rgba_of_write dgram i v p rest hp hdrop
    simp only [addArgEntries, List.map_cons, List.map_nil, List.cons_append, List.nil_append]
    rw [parseTags_step_r dgram _ _ _ _ v.toNat hgi.1]
    simp only [appendTop, pyValueOf, hgi.2, Int.toNat_of_nonneg hl.1]
    push_cast
    rfl
  | m pp =>
    simp only [payloadOfArg] at hp
    obtain rfl : write_midi ((pp.1 : Int), (pp.2.1 : Int), (pp.2.2.1 : Int), (pp.2.2.2 : Int)) = p :=
      Option.some.inj hp
    simp only [legalArg, Bool.and_eq_true, decide_eq_true_eq] at hl
    have hgi := get_midi_of_write dgram i pp rest ⟨hl.1.1.1, hl.1.1.2, hl.1.2, hl.2⟩ hdrop
    simp only [addArgEntries, List.map_cons, List.map_nil, List.cons_append, List.nil_append]
    rw [parseTags_step_m dgram _ _ _ _ pp hgi]
    have hplen : (write_midi ((pp.1 : Int), (pp.2.1 : Int), (pp.2.2.1 : Int),
        (pp.2.2.2 : Int))).length = 4 := by
      unfold write_midi
      exact beBytes_length _ _
    simp only [appendTop, pyValueOf, hplen]
    push_cast
    rfl
  | T =>
    simp only [payloadOfArg] at hp
    obtain rfl : ([] : Dgram) = p := Option.some.inj hp
    simp only [addArgEntries, List.map_cons, List.map_nil, List.cons_append, List.nil_append]
    rw [parseTags_step_T]
    simp [appendTop, pyValueOf]
  | F =>
    simp only [payloadOfArg] at hp
    obtain rfl : ([] : Dgram) = p := Option.some.inj hp
    simp only [addArgEntries, List.map_cons, List.map_nil, List.cons_append, List.nil_append]
    rw [parseTags_step_F]
    simp [appendTop, pyValueOf]
  | N =>
    simp only [payloadOfArg] at hp
    obtain rfl : ([] : Dgram) = p := Option.some.inj hp
    simp only [addArgEntries, List.map_cons, List.map_nil, List.cons_append, List.nil_append]
    rw [parseTags_step_N]
    simp [appendTop, pyValueOf]
  | arr elems =>
    simp only [payloadOfArg] at hp
    simp only [legalArg] at hl
    simp only [addArgEntries, List.map_cons, List.map_append, List.map_nil,
      List.cons_append, List.append_assoc, List.nil_append]
    rw [parseTags_step_openBr]
    rw [parse_entries_list dgram elems (0x5D :: restTags) i [] (top :: stack) p rest hl hp hdrop]
    rw [List.nil_append, parseTags_step_closeBr]
    simp only [pyValueOf]
termination_by sizeOf t

theorem parse_entries_list (dgram : Dgram) (ts : List TypedArg) (restTags : List Byte)
    (i : Nat) (top : List PyValue) (stack : List (List PyValue)) (p rest : Dgram)
    (hl : legalArgs ts = true) (hp : payloadOfArgs ts = some p)
    (hdrop : dgram.drop i = p ++ rest) :
    parseTags dgram ((addArgEntriesList ts).map Prod.fst ++ restTags) (i : Int) (top :: stack) =
      parseTags dgram restTags ((i + p.length : Nat) : Int)
        ((top ++ pyValuesOf ts) :: stack) := by
  cases ts with
  | nil =>
    simp only [payloadOfArgs] at hp
    obtain rfl : ([] : Dgram) = p := Option.some.inj hp
    simp [addArgEntriesList, pyValuesOf]
  | cons a ts' =>
    simp only [payloadOfArgs] at hp
    rcases hpa : payloadOfArg a with _ | p₁
    · rw [hpa] at hp
      simp at hp
    rcases hpb : payloadOfArgs ts' with _ | p₂
    · rw [hpa, hpb] at hp
      simp at hp
    rw [hpa, hpb] at hp
    simp only [Option.bind_eq_bind, Option.some_bind] at hp
    obtain rfl : p₁ ++ p₂ = p := Option.some.inj hp
    simp only [legalArgs, Bool.and_eq_true] at hl
    have hdrop₁ : dgram.drop i = p₁ ++ (p₂ ++ rest) := by
      rw [hdrop, List.append_assoc]
    have hdrop₂ : dgram.drop (i + p₁.length) = p₂ ++ rest :=
      drop_add_of_drop dgram i p₁ (p₂ ++ rest) hdrop₁
    simp only [addArgEntriesList, List.map_append, List.append_assoc]
    rw [parse_entries_arg dgram a _ i top stack p₁ (p₂ ++ rest) hl.1 hpa hdrop₁]
    rw [parse_entries_list dgram ts' restTags (i + p₁.length) (top ++ [pyValueOf a]) stack
      p₂ rest hl.2 hpb hdrop₂]
    simp [pyValuesOf, Nat.add_assoc]
termination_by sizeOf ts

end

/-! ### Side conditions of the builder -/

mutual

theorem addArgEntries_tags_ne_zero (t : TypedArg) :
    ∀ b ∈ (addArgEntries t).map Prod.fst, b ≠ 0 := by
  cases t with
  | arr elems =>
    intro b hb
    simp only [addArgEntries, List.map_cons, List.map_append, List.map_nil,
      List.cons_append, List.mem_cons, List.mem_append] at hb
    rcases hb with rfl | hb | hb
    · decide
    · exact addArgEntriesList_tags_ne_zero elems b hb
    · simp only [List.mem_cons, List.not_mem_nil, or_false] at hb
      subst hb
      decide
  | i v => intro b hb; simp only [addArgEntries, List.map_cons, List.map_nil,
      List.mem_cons, List.not_mem_nil, or_false] at hb; subst hb; decide
  | h v => intro b hb; simp only [addArgEntries, List.map_cons, List.map_nil,
      List.mem_cons, List.not_mem_nil, or_false] at hb; subst hb; decide
  | f bits => intro b hb; simp only [addArgEntries, List.map_cons, List.map_nil,
      List.mem_cons, List.not_mem_nil, or_false] at hb; subst hb; decide
  | d bits => intro b hb; simp only [addArgEntries, List.map_cons, List.map_nil,
      List.mem_cons, List.not_mem_nil, or_false] at hb; subst hb; decide
  | s str => intro b hb; simp only [addArgEntries, List.map_cons, List.map_nil,
      List.mem_cons, List.not_mem_nil, or_false] at hb; subst hb; decide
  | b bytes => intro b hb; simp only [addArgEntries, List.map_cons, List.map_nil,
      List.mem_cons, List.not_mem_nil, or_false] at hb; subst hb; decide
  | r v => intro b hb; simp only [addArgEntries, List.map_cons, List.map_nil,
      List.mem_cons, List.not_mem_nil, or_false] at hb; subst hb; decide
  | m pp => intro b hb; simp only [addArgEntries, List.map_cons, List.map_nil,
      List.mem_cons, List.not_mem_nil, or_false] at hb; subst hb; decide
  | T => intro b hb; simp only [addArgEntries, List.map_cons, List.map_nil,
      List.mem_cons, List.not_mem_nil, or_false] at hb; subst hb; decide
  | F => intro b hb; simp only [addArgEntries, List.map_cons, List.map_nil,
      List.mem_cons, List.not_mem_nil, or_false] at hb; subst hb; decide
  | N => intro b hb; simp only [addArgEntries, List.map_cons, List.map_nil,
      List.mem_cons, List.not_mem_nil, or_false] at hb; subst hb; decide
termination_by sizeOf t

theorem addArgEntriesList_tags_ne_zero (ts : List TypedArg) :
    ∀ b ∈ (addArgEntriesList ts).map Prod.fst, b ≠ 0 := by
  cases ts with
  | nil => intro b hb; simp [addArgEntriesList] at hb
  | cons a ts' =>
    intro b hb
    simp only [addArgEntriesList, List.map_append, List.mem_append] at hb
    rcases hb with hb | hb
    · exact addArgEntries_tags_ne_zero a b hb
    · exact addArgEntriesList_tags_ne_zero ts' b hb
termination_by sizeOf ts

end

mutual

theorem payloadOfArg_isSome (t : TypedArg) (hl : legalArg t = true) :
    ∃ p, payloadOfArg t = some p := by
  cases t with
  | i v =>
    simp only [legalArg, Bool.and_eq_true, decide_eq_true_eq] at hl
    refine ⟨beBytes 4 ((v % 2 ^ 32).toNat), ?_⟩
    unfold payloadOfArg write_int
    rw [if_pos hl]
  | h v =>
    simp only [legalArg, Bool.and_eq_true, decide_eq_true_eq] at hl
    refine ⟨beBytes 8 ((v % 2 ^ 64).toNat), ?_⟩
    unfold payloadOfArg write_int64
    rw [if_pos hl]
  | f bits => exact ⟨_, rfl⟩
  | d bits => exact ⟨_, rfl⟩
  | s str => exact ⟨_, rfl⟩
  | b bytes =>
    have hne : bytes ≠ [] := by
      rcases bytes with _ | ⟨c, cs⟩
      · simp [legalArg] at hl
      · simp
    have hlen : bytes.length < 2 ^ 31 := by
      simp only [legalArg, Bool.and_eq_true, decide_eq_true_eq] at hl
      exact hl.1.2
    refine ⟨(beBytes 4 (((bytes.length : Int)) % 2 ^ 32).toNat ++ bytes) ++
      List.replicate ((4 - (beBytes 4 (((bytes.length : Int)) % 2 ^ 32).toNat ++
        bytes).length % 4) % 4) 0, ?_⟩
    unfold payloadOfArg write_blob write_int
    rw [if_neg hne, if_pos ⟨by omega, by omega⟩]
    rfl
  | r v =>
    simp only [legalArg, Bool.and_eq_true, decide_eq_true_eq] at hl
    refine ⟨beBytes 4 v.toNat, ?_⟩
    unfold payloadOfArg write_rgba
    rw [if_pos hl]
  | m pp => exact ⟨_, rfl⟩
  | T => exact ⟨_, rfl⟩
  | F => exact ⟨_, rfl⟩
  | N => exact ⟨_, rfl⟩
  | arr elems =>
    simp only [legalArg] at hl
    exact payloadOfArgs_isSome elems hl
termination_by sizeOf t

theorem payloadOfArgs_isSome (ts : List TypedArg) (hl : legalArgs ts = true) :
    ∃ p, payloadOfArgs ts = some p := by
  cases ts with
  | nil => exact ⟨[], rfl⟩
  | cons a ts' =>
    simp only [legalArgs, Bool.and_eq_true] at hl
    obtain ⟨p₁, hp₁⟩ := payloadOfArg_isSome a hl.1
    obtain ⟨p₂, hp₂⟩ := payloadOfArgs_isSome ts' hl.2
    refine ⟨p₁ ++ p₂, ?_⟩
    unfold payloadOfArgs
    rw [hp₁, hp₂]
    rfl
termination_by sizeOf ts

end

theorem buildFold_eq_payloadOfEntries (l : List ArgEntry) (acc : Dgram) :
    l.foldlM (fun acc (tv : ArgEntry) => do
        pure (acc ++ (← writeArgPayload tv.1 tv.2))) acc =
      (payloadOfEntries l).map (fun p => acc ++ p) := by
  induction l generalizing acc with
  | nil => simp [payloadOfEntries]
  | cons e l ih =>
    rw [List.foldlM_cons]
    simp only [ih]
    cases he : writeArgPayload e.1 e.2 <;> cases hr : payloadOfEntries l <;>
      simp [payloadOfEntries, he, hr, List.append_assoc]

theorem payloadOfEntries_append (l₁ l₂ : List ArgEntry) :
    payloadOfEntries (l₁ ++ l₂) =
      (do pure ((← payloadOfEntries l₁) ++ (← payloadOfEntries l₂))) := by
  induction l₁ with
  | nil =>
    rw [List.nil_append]
    cases payloadOfEntries l₂ <;> simp [payloadOfEntries]
  | cons e l ih =>
    rw [List.cons_append]
    simp only [payloadOfEntries, ih]
    cases writeArgPayload e.1 e.2 <;> cases payloadOfEntries l <;>
      cases payloadOfEntries l₂ <;> simp [List.append_assoc]

mutual

theorem payloadOfEntries_arg (t : TypedArg) :
    payloadOfEntries (addArgEntries t) = payloadOfArg t := by
  cases t with
  | i v =>
    simp only [addArgEntries, payloadOfArg]
    cases hw : write_int v <;> simp [payloadOfEntries, writeArgPayload, hw]
  | h v =>
    simp only [addArgEntries, payloadOfArg]
    cases hw : write_int64 v <;> simp [payloadOfEntries, writeArgPayload, hw]
  | f bits =>
    simp only [addArgEntries, payloadOfArg]
    simp [payloadOfEntries, writeArgPayload]
  | d bits =>
    simp only [addArgEntries, payloadOfArg]
    simp [payloadOfEntries, writeArgPayload]
  | s str =>
    simp only [addArgEntries, payloadOfArg]
    simp [payloadOfEntries, writeArgPayload]
  | b bytes =>
    simp only [addArgEntries, payloadOfArg]
    cases hw : write_blob bytes <;> simp [payloadOfEntries, writeArgPayload, hw]
  | r v =>
    simp only [addArgEntries, payloadOfArg]
    cases hw : write_rgba v <;> simp [payloadOfEntries, writeArgPayload, hw]
  | m pp =>
    simp only [addArgEntries, payloadOfArg]
    simp [payloadOfEntries, writeArgPayload]
  | T =>
    simp only [addArgEntries, payloadOfArg]
    simp [payloadOfEntries, writeArgPayload]
  | F =>
    simp only [addArgEntries, payloadOfArg]
    simp [payloadOfEntries, writeArgPayload]
  | N =>
    simp only [addArgEntries, payloadOfArg]
    simp [payloadOfEntries, writeArgPayload]
  | arr elems =>
    simp only [addArgEntries, payloadOfArg, List.cons_append]
    simp only [payloadOfEntries, payloadOfEntries_append]
    rw [payloadOfEntries_list elems]
    cases hp : payloadOfArgs elems <;> simp [payloadOfEntries, writeArgPayload, hp]
termination_by sizeOf t

theorem payloadOfEntries_list (ts : List TypedArg) :
    payloadOfEntries (addArgEntriesList ts) = payloadOfArgs ts := by
  cases ts with
  | nil => simp [addArgEntriesList, payloadOfEntries, payloadOfArgs]
  | cons a ts' =>
    simp only [addArgEntriesList, payloadOfArgs, payloadOfEntries_append]
    rw [payloadOfEntries_arg a, payloadOfEntries_list ts']
termination_by sizeOf ts

end


/-! ### Parsing the assembled datagram -/

theorem write_string_ne_nil (s : List Byte) : write_string s ≠ [] := by
  unfold write_string
  intro h
  rcases List.append_eq_nil.mp h with ⟨hs, hr⟩
  subst hs
  simp at hr

theorem addArgEntries_ne_nil (t : TypedArg) : addArgEntries t ≠ [] := by
  cases t <;> simp [addArgEntries]

theorem oscMessageParse_assembled (addr tagBytes payload : List Byte) (params : List PyValue)
    (hanz : ∀ c ∈ addr, c ≠ 0)
    (htags : ∀ b ∈ tagBytes, b ≠ 0)
    (hparse : parseTags (write_string addr ++ write_string (0x2C :: tagBytes) ++ payload)
        tagBytes
        (((write_string addr).length : Int) + ((write_string (0x2C :: tagBytes)).length : Int))
        [[]] =
      some (params,
        ((write_string addr ++ write_string (0x2C :: tagBytes) ++ payload).length : Int))) :
    oscMessageParse (write_string addr ++ write_string (0x2C :: tagBytes) ++ payload) =
      some ⟨addr, params,
        write_string addr ++ write_string (0x2C :: tagBytes) ++ payload, Option.none⟩ := by
  have hdrop0 : (write_string addr ++ write_string (0x2C :: tagBytes) ++ payload).drop 0 =
      write_string addr ++ (write_string (0x2C :: tagBytes) ++ payload) := by
    simp [List.append_assoc]
  have hg0 := get_string_of_write _ 0 addr _ hdrop0 hanz
  have hg0' : get_string (write_string addr ++ write_string (0x2C :: tagBytes) ++ payload) 0 =
      some (addr, ((write_string addr).length : Int)) := by
    push_cast at hg0
    rw [zero_add] at hg0
    exact hg0
  have hdrop1 : (write_string addr ++ write_string (0x2C :: tagBytes) ++ payload).drop
      (write_string addr).length = write_string (0x2C :: tagBytes) ++ payload := by
    have := drop_add_of_drop _ 0 (write_string addr) _ hdrop0
    rw [Nat.zero_add] at this
    exact this
  have htags2 : ∀ c ∈ 0x2C :: tagBytes, c ≠ 0 := by
    intro c hc
    rcases List.mem_cons.mp hc with rfl | hc
    · decide
    · exact htags c hc
  have hg1 := get_string_of_write _ (write_string addr).length (0x2C :: tagBytes) payload
    hdrop1 htags2
  have hne1 : ¬(pySliceFrom (write_string addr ++ write_string (0x2C :: tagBytes) ++ payload)
      ((write_string addr).length : Int) = []) := by
    rw [pySliceFrom_nat, hdrop1]
    simp [write_string_ne_nil]
  unfold oscMessageParse
  rw [hg0']
  simp only [Option.bind_eq_bind, Option.some_bind]
  rw [if_neg hne1, hg1]
  simp only [Option.bind_eq_bind, Option.some_bind, List.head?_cons, List.tail_cons, if_true]
  rw [hparse]
  simp only [Option.bind_eq_bind, Option.some_bind]
  rw [if_neg (lt_irrefl _)]
  rfl

/-- C1: building a message from a legal address and a list of legal typed
argument values succeeds, and re-parsing the assembled datagram (which is what
the `OscMessage` constructor does, and what `build` itself returns) yields the
same address and an elementwise-equal parameter list. -/
theorem build_parse_roundtrip (addr : List Byte) (ts : List TypedArg)
    (ha : legalAddress addr = true) (hl : legalArgs ts = true) :
    ∃ msg : OscMessage,
      build addr (addArgEntriesList ts) = some msg ∧
      oscMessageParse msg.dgram = some msg ∧
      msg.address = addr ∧ msg.params = pyValuesOf ts := by
  obtain ⟨p, hp⟩ := payloadOfArgs_isSome ts hl
  have hanz : ∀ c ∈ addr, c ≠ 0 := by
    simp only [legalAddress, Bool.and_eq_true, List.all_eq_true, bne_iff_ne, ne_eq,
      decide_eq_true_eq] at ha
    exact fun c hc => (ha.2 c hc).1
  have hane : addr ≠ [] := by
    simp only [legalAddress, Bool.and_eq_true] at ha
    intro h
    subst h
    simp at ha
  have haemp : addr.isEmpty = false := by
    rcases addr with _ | _
    · exact absurd rfl hane
    · rfl
  cases ts with
  | nil =>
    simp only [payloadOfArgs] at hp
    obtain rfl : ([] : Dgram) = p := Option.some.inj hp
    have hlen : ((write_string addr ++ write_string [0x2C] ++ ([] : Dgram)).length : Int) =
        ((write_string addr).length : Int) + ((write_string [0x2C]).length : Int) := by
      push_cast [List.length_append, List.length_nil]
      ring
    have hparse : parseTags (write_string addr ++ write_string [0x2C] ++ ([] : Dgram)) []
        (((write_string addr).length : Int) + ((write_string [0x2C]).length : Int)) [[]] =
        some ([], ((write_string addr ++ write_string [0x2C] ++ ([] : Dgram)).length : Int)) := by
      rw [hlen, parseTags_nil]
    have hmsg := oscMessageParse_assembled addr [] [] [] hanz (by simp) hparse
    rw [List.append_nil] at hmsg
    refine ⟨⟨addr, [], write_string addr ++ write_string [0x2C], Option.none⟩, ?_, hmsg, rfl, rfl⟩
    unfold build
    rw [if_neg (by simp [haemp])]
    rw [if_pos (show (addArgEntriesList []).isEmpty = true from rfl)]
    exact hmsg
  | cons t0 ts0 =>
    have hargsne : addArgEntriesList (t0 :: ts0) ≠ [] := by
      simp only [addArgEntriesList]
      intro h
      rcases List.append_eq_nil.mp h with ⟨h1, h2⟩
      exact addArgEntries_ne_nil t0 h1
    have hargsemp : (addArgEntriesList (t0 :: ts0)).isEmpty = false := by
      rcases hh : addArgEntriesList (t0 :: ts0) with _ | _
      · exact absurd hh hargsne
      · rfl
    have htagsnz := addArgEntriesList_tags_ne_zero (t0 :: ts0)
    have h0 : (write_string addr ++
        write_string (0x2C :: (addArgEntriesList (t0 :: ts0)).map Prod.fst) ++ p).drop 0 =
        (write_string addr ++
          write_string (0x2C :: (addArgEntriesList (t0 :: ts0)).map Prod.fst)) ++ p := by
      simp
    have hdropn := drop_add_of_drop _ 0 _ _ h0
    simp only [Nat.zero_add, List.length_append] at hdropn
    have hmain := parse_entries_list (write_string addr ++
        write_string (0x2C :: (addArgEntriesList (t0 :: ts0)).map Prod.fst) ++ p)
      (t0 :: ts0) []
      ((write_string addr).length +
        (write_string (0x2C :: (addArgEntriesList (t0 :: ts0)).map Prod.fst)).length)
      [] [] p [] hl hp (by rw [List.append_nil]; exact hdropn)
    rw [List.append_nil, List.nil_append, parseTags_nil] at hmain
    push_cast at hmain
    have hlen : ((write_string addr ++
        write_string (0x2C :: (addArgEntriesList (t0 :: ts0)).map Prod.fst) ++ p).length : Int) =
        ((write_string addr).length : Int) +
          ((write_string (0x2C :: (addArgEntriesList (t0 :: ts0)).map Prod.fst)).length : Int) +
          (p.length : Int) := by
      push_cast [List.length_append]
      ring
    have hparse : parseTags (write_string addr ++
        write_string (0x2C :: (addArgEntriesList (t0 :: ts0)).map Prod.fst) ++ p)
        ((addArgEntriesList (t0 :: ts0)).map Prod.fst)
        (((write_string addr).length : Int) +
          ((write_string (0x2C :: (addArgEntriesList (t0 :: ts0)).map Prod.fst)).length : Int))
        [[]] =
        some (pyValuesOf (t0 :: ts0), ((write_string addr ++
          write_string (0x2C :: (addArgEntriesList (t0 :: ts0)).map Prod.fst) ++
            p).length : Int)) := by
      rw [hlen]
      exact hmain
    have hmsg := oscMessageParse_assembled addr ((addArgEntriesList (t0 :: ts0)).map Prod.fst)
      p (pyValuesOf (t0 :: ts0)) hanz htagsnz hparse
    refine ⟨⟨addr, pyValuesOf (t0 :: ts0), write_string addr ++
      write_string (0x2C :: (addArgEntriesList (t0 :: ts0)).map Prod.fst) ++ p,
      Option.none⟩, ?_, hmsg, rfl, rfl⟩
    unfold build
    rw [if_neg (by simp [haemp])]
    rw [if_neg (by simp [hargsemp])]
    rw [buildFold_eq_payloadOfEntries, payloadOfEntries_list, hp]
    simp only [Option.map_some', Option.bind_eq_bind, Option.some_bind, List.nil_append]
    exact hmsg

theorem build_parse_roundtrip_witness :
    legalAddress [0x2F, 0x61] = true ∧
    legalArgs [.i 3, .s [0x41], .arr [.T, .i 5]] = true ∧
    ∃ msg : OscMessage,
      build [0x2F, 0x61] (addArgEntriesList [.i 3, .s [0x41], .arr [.T, .i 5]]) = some msg ∧
      oscMessageParse msg.dgram = some msg ∧
      msg.address = [0x2F, 0x61] ∧
      msg.params = pyValuesOf [.i 3, .s [0x41], .arr [.T, .i 5]] :=
  ⟨by decide, by decide, build_parse_roundtrip _ _ (by decide) (by decide)⟩

/-! ## C9 — auto-typing of plain ints

`_get_arg_type` tags an int `i` when `bit_length() <= 32`, which admits
values such as `2 ** 31` (bit length exactly 32) that do not fit a signed
32-bit integer; `write_int` then fails, so building the message fails. -/

/-- C9: the auto-typing of a Python int does not assign tag `i` exactly on
the signed 32-bit range: `2 ** 31` gets tag `i` (its bit length, 32, is not
`> 32`), and building a message with that automatically typed argument then
fails in `write_int` instead of encoding it without error. -/
theorem int_auto_typing_not_int32 :
    getArgType (.int (2 ^ 31)) = some (.tag 0x69) ∧
    buildAuto [0x2F, 0x78] [.int (2 ^ 31)] = Option.none :=
  ⟨rfl, rfl⟩

end PythonOsc

